import Mathlib

/-!
Shallow embedding of the budget-tracker app's CSV-backed data pipeline
(`public/js/app.js` and `utils/dataHelpers.js`).

Modelling conventions:
* JS strings are Lean `String`s; character-level work happens on `List Char`.
* JS numbers are exact rationals `ℚ`; `NaN` is `Option.none` wherever a
  computation can produce it.  `Number(s)` is modelled on the plain decimal
  fragment (optional sign, digits, optional fraction); hexadecimal, exponent
  and `Infinity` forms do not occur in this app's data.
* JS objects (the parsed CSV records) are insertion-ordered association lists
  `List (String × Value)`; property writes overwrite in place or append.
* DOM rendering, alert boxes and file-system persistence are outside the
  state model; user-visible signals are returned as explicit values.
-/

namespace BudgetApp

/-- The JS values stored in record fields: strings, (finite) numbers,
`null` and `undefined`. -/
inductive Value where
  | vStr (s : String)
  | vNum (q : ℚ)
  | vNull
  | vUndef
deriving DecidableEq

/-- A JS object as produced by `parseCSV` and mutated by the app:
an insertion-ordered association list from property names to values. -/
abbrev Obj := List (String × Value)

/-- JS truthiness for the values that occur in the app. -/
def jsTruthy : Value → Bool
  | .vStr s => s ≠ ""
  | .vNum q => q ≠ 0
  | .vNull => false
  | .vUndef => false

/-- JS whitespace characters relevant to `String.prototype.trim` for this
app's ASCII data (plus the BOM, which JS also treats as whitespace). -/
def isJsWs (c : Char) : Bool :=
  c = ' ' ∨ c = '\t' ∨ c = '\n' ∨ c = '\r' ∨ c = '\x0b' ∨ c = '\x0c' ∨ c = '﻿'

/-- Drop trailing characters satisfying `p` (helper for `jsTrim`). -/
def dropLastWhile (p : Char → Bool) (l : List Char) : List Char :=
  (l.reverse.dropWhile p).reverse

/-- JS `String.prototype.trim` on the character list of a string. -/
def jsTrim (l : List Char) : List Char :=
  dropLastWhile isJsWs (l.dropWhile isJsWs)

/-- JS `str.split(sep)` for a single-character separator:
`"a,,b" ↦ ["a","","b"]`, `"" ↦ [""]`. -/
def splitOnChar (sep : Char) : List Char → List (List Char)
  | [] => [[]]
  | c :: t =>
    if c = sep then [] :: splitOnChar sep t
    else
      match splitOnChar sep t with
      | [] => [[c]]
      | h :: r => (c :: h) :: r

/-- Remove one trailing `'\r'` (part of modelling `split(/\r?\n/)`). -/
def dropTrailingCR (l : List Char) : List Char :=
  match l.getLast? with
  | some c => if c = '\r' then l.dropLast else l
  | none => l

/-- On the pieces produced by splitting at `'\n'`, every piece except the
last was followed by a newline, so a trailing `'\r'` there belonged to the
`\r?\n` separator and is removed. -/
def stripSeparatorCRs : List (List Char) → List (List Char)
  | [] => []
  | [l] => [l]
  | l :: r => dropTrailingCR l :: stripSeparatorCRs r

/-- JS `text.split(/\r?\n/)` on a character list. -/
def splitLines (cs : List Char) : List (List Char) :=
  stripSeparatorCRs (splitOnChar '\n' cs)

/-! ### Decimal numbers: JS `Number(...)` and number-to-string -/

/-- Decimal digit test. -/
def isDigitCh (c : Char) : Bool := '0' ≤ c ∧ c ≤ '9'

/-- Numeric value of a digit character. -/
def digitVal (c : Char) : ℕ := c.toNat - 48

/-- Value of a big-endian digit string, as JS accumulates it. -/
def digitsVal (l : List Char) : ℕ :=
  l.foldl (fun a c => 10 * a + digitVal c) 0

/-- Apply a parsed sign. -/
def applySign (neg : Bool) (q : ℚ) : ℚ := if neg then -q else q

/-- The unsigned decimal body: integer digits, optional `'.'` and fraction
digits (at least one digit in total); anything else is `NaN` (`none`). -/
def parseUnsigned (cs : List Char) : Option ℚ :=
  let ip := cs.takeWhile isDigitCh
  let rest := cs.dropWhile isDigitCh
  if rest = [] then
    if ip = [] then none else some (digitsVal ip : ℚ)
  else if rest.head? = some '.' then
    let fr := rest.tail
    let fp := fr.takeWhile isDigitCh
    if fr.dropWhile isDigitCh = [] ∧ (ip ≠ [] ∨ fp ≠ []) then
      some ((digitsVal ip : ℚ) + (digitsVal fp : ℚ) / 10 ^ fp.length)
    else none
  else none

/-- JS `Number` on a trimmed, nonempty decimal literal: optional sign, then
the unsigned decimal body.  `none` models `NaN`. -/
def parseDecimal (cs : List Char) : Option ℚ :=
  if cs.head? = some '-' then (parseUnsigned cs.tail).map (fun q => -q)
  else if cs.head? = some '+' then parseUnsigned cs.tail
  else parseUnsigned cs

/-- JS `Number(s)` on an arbitrary string: whitespace-only (including empty)
strings convert to `0`, otherwise the trimmed text is parsed as a decimal
literal; `none` models `NaN`. -/
def jsNumberOfString (s : String) : Option ℚ :=
  let t := jsTrim s.data
  if t = [] then some 0 else parseDecimal t

/-- Linear search for the least `j` (up to the fuel) with `d ∣ 10 ^ j`. -/
def findKAux (d : ℕ) : ℕ → ℕ → ℕ
  | 0, j => j
  | fuel + 1, j => if d ∣ 10 ^ j then j else findKAux d fuel (j + 1)

/-- The decimal scale of a denominator: the least `j ≤ d` with `d ∣ 10 ^ j`
(and a harmless default when `d` is not of the form `2^a * 5^b`). -/
def findK (d : ℕ) : ℕ := findKAux d (d + 1) 0

/-- The character of a decimal digit. -/
def digitChar (d : ℕ) : Char := Char.ofNat (48 + d)

/-- Little-endian base-10 digits with explicit fuel (structural recursion,
so concrete values evaluate). -/
def natDigitsAux : ℕ → ℕ → List ℕ
  | 0, _ => []
  | fuel + 1, n => if n = 0 then [] else n % 10 :: natDigitsAux fuel (n / 10)

/-- Little-endian base-10 digits of a natural number (empty for `0`). -/
def natDigitsLE (n : ℕ) : List ℕ := natDigitsAux n n

/-- Big-endian digit characters of a natural number (JS prints `0` as "0"). -/
def natChars (m : ℕ) : List Char :=
  if m = 0 then ['0'] else ((natDigitsLE m).reverse.map digitChar)

/-- Left-pad with `'0'` to at least the given length. -/
def padZeros (l : List Char) (n : ℕ) : List Char :=
  List.replicate (n - l.length) '0' ++ l

/-- Render a nonnegative decimal rational the way JS `String(number)` does
for the decimals this app handles: minimal fraction digits, a leading `0`
before a bare fraction. -/
def renderPos (a : ℚ) : List Char :=
  let k := findK a.den
  let m := (a * 10 ^ k).num.toNat
  let ds := natChars m
  if k = 0 then ds
  else
    let ds2 := padZeros ds (k + 1)
    ds2.take (ds2.length - k) ++ '.' :: ds2.drop (ds2.length - k)

/-- JS `String(number)` for the finite decimals this app handles. -/
def renderNum (q : ℚ) : List Char :=
  if q < 0 then '-' :: renderPos (-q) else renderPos q

/-- JS `String(v)` for a record field value. -/
def valueToString : Value → String
  | .vStr s => s
  | .vNum q => ⟨renderNum q⟩
  | .vNull => "null"
  | .vUndef => "undefined"

/-! ### JS object operations -/

/-- JS property read `obj[k]`: `undefined` when absent. -/
def getFieldV (r : Obj) (k : String) : Value :=
  (List.lookup k r).getD Value.vUndef

/-- JS property write `obj[k] = v`: overwrite in place, else append. -/
def setValue (r : Obj) (k : String) (v : Value) : Obj :=
  match r with
  | [] => [(k, v)]
  | (k0, v0) :: t => if k0 = k then (k, v) :: t else (k0, v0) :: setValue t k v

/-- JS `a || b` (on field values). -/
def jsOr (a b : Value) : Value := if jsTruthy a then a else b

/-- JS `a ?? b` (nullish coalescing, on field values). -/
def jsNN (a b : Value) : Value :=
  match a with
  | .vNull => b
  | .vUndef => b
  | _ => a

/-- JS `Number(v)` on a field value (`none` models `NaN`). -/
def toNumber : Value → Option ℚ
  | .vStr s => jsNumberOfString s
  | .vNum q => some q
  | .vNull => some 0
  | .vUndef => none

/-- The ubiquitous coercion `Number(x || 0) || 0`: non-numeric and missing
values become `0`; never raises. -/
def coerce0 (v : Value) : ℚ :=
  (toNumber (jsOr v (.vNum 0))).getD 0

/-- Lowercase a string (`String.prototype.toLowerCase`, ASCII data). -/
def lowerStr (s : String) : String := ⟨s.data.map Char.toLower⟩

/-- Does `l` start with `pat`? (JS `startsWith`, used on character lists.) -/
def startsWithSeq : List Char → List Char → Bool
  | _, [] => true
  | [], _ :: _ => false
  | c :: t, p :: ps => c = p ∧ startsWithSeq t ps

/-- Does `l` contain `pat` as a contiguous run? (regex `.test` for a plain
pattern). -/
def containsSeq : List Char → List Char → Bool
  | [], pat => startsWithSeq [] pat
  | c :: t, pat => startsWithSeq (c :: t) pat ∨ containsSeq t pat

/-! ### The CSV codec (`utils/dataHelpers.js` `parseCSV`,
`app.js` `saveBillsToCSV`) -/

/-- `/amount|utilization/i.test(header)`. -/
def isAmountHeader (h : List Char) : Bool :=
  containsSeq (h.map Char.toLower) "amount".data ∨
    containsSeq (h.map Char.toLower) "utilization".data

/-- `header.replace(/^﻿/, '')`: strip one leading BOM. -/
def stripBOM (l : List Char) : List Char :=
  match l with
  | '﻿' :: t => t
  | _ => l

/-- The value stored for one CSV cell: amount/utilization-named headers get
their (trimmed, nonempty) text converted to a number when it parses as one,
everything else keeps the trimmed text. -/
def cellValue (h raw : List Char) : Value :=
  if isAmountHeader h ∧ raw ≠ [] then
    match jsNumberOfString ⟨raw⟩ with
    | some q => .vNum q
    | none => .vStr ⟨raw⟩
  else .vStr ⟨raw⟩

/-- The `headers.forEach((header, index) => ...)` loop body: for each header
(by column index) take the trimmed cell text (missing cells read as `''`)
and assign the coerced value, in header order. -/
def rowRecordAux (values : List (List Char)) : ℕ → List (List Char) → Obj → Obj
  | _, [], r => r
  | idx, h :: hs, r =>
    rowRecordAux values (idx + 1) hs (setValue r ⟨h⟩ (cellValue h (jsTrim (values.getD idx []))))

/-- Build the record object for one CSV data row. -/
def rowRecord (headers : List (List Char)) (values : List (List Char)) : Obj :=
  rowRecordAux values 0 headers []

/-- `parseCSV(text)` from `utils/dataHelpers.js`: trim the text, split into
nonblank lines, read the first as the header row (fields trimmed and
BOM-stripped), then turn each further line into a record. -/
def parseCSV (text : String) : List Obj :=
  if text = "" then []
  else
    match (splitLines (jsTrim text.data)).filter (fun l => jsTrim l ≠ []) with
    | [] => []
    | header :: rows =>
      let headers := (splitOnChar ',' header).map (fun h => stripBOM (jsTrim h))
      rows.map (fun line => rowRecord headers (splitOnChar ',' line))

/-- The bills schema column names, in the order `saveBillsToCSV` writes them. -/
def billsSchema : List String :=
  ["Bill_ID", "Bill_Name", "Category", "Amount_Due", "Due_Date", "Paid_Date",
   "Status", "Recurring", "Frequency", "Payment_Method", "Notes"]

/-- `(b.Notes ?? '').toString().replace(/\n/g, ' ')`. -/
def flattenNewlines (s : String) : String :=
  ⟨s.data.map (fun c => if c = '\n' then ' ' else c)⟩

/-- One serialized bill field: `b[k] ?? ''`, stringified by `join`. -/
def billField (b : Obj) (k : String) : String :=
  valueToString (jsNN (getFieldV b k) (.vStr ""))

/-- The serialized fields of one bill row, in schema order (notes get their
newlines flattened to spaces). -/
def billRowFields (b : Obj) : List (List Char) :=
  [(billField b "Bill_ID").data, (billField b "Bill_Name").data,
   (billField b "Category").data, (billField b "Amount_Due").data,
   (billField b "Due_Date").data, (billField b "Paid_Date").data,
   (billField b "Status").data, (billField b "Recurring").data,
   (billField b "Frequency").data, (billField b "Payment_Method").data,
   (flattenNewlines (billField b "Notes")).data]

/-- `billRowFields` in schema-keyed form: the serialized text of the bill's
field for column `k`, with the notes column's newlines flattened. -/
def serField (b : Obj) (k : String) : List Char :=
  if k = "Notes" then (flattenNewlines (billField b k)).data
  else (billField b k).data

/-- `Array.prototype.join(sep)` on character lists. -/
def joinSep (sep : List Char) : List (List Char) → List Char
  | [] => []
  | [x] => x
  | x :: y :: t => x ++ sep ++ joinSep sep (y :: t)

/-- The CSV text `saveBillsToCSV` builds (the write itself is the external
persistence adapter): a fixed header line, then one comma-joined line per
bill, each line newline-terminated. -/
def saveBillsToCSV (bills : List Obj) : String :=
  ⟨joinSep [','] (billsSchema.map String.data) ++ '\n' ::
    (bills.map (fun b => joinSep [','] (billRowFields b) ++ ['\n'])).flatten⟩

/-! ### Dates (luxon usage restricted to the plain `YYYY-MM-DD` dates this
app stores) -/

/-- A calendar date. -/
structure Ymd where
  year : ℕ
  month : ℕ
  day : ℕ
deriving DecidableEq

/-- Gregorian leap year. -/
def isLeapYear (y : ℕ) : Bool := (y % 4 = 0 ∧ y % 100 ≠ 0) ∨ y % 400 = 0

/-- Days in a month. -/
def daysInMonth (y m : ℕ) : ℕ :=
  if m = 2 then (if isLeapYear y then 29 else 28)
  else if m = 4 ∨ m = 6 ∨ m = 9 ∨ m = 11 then 30
  else 31

/-- Parse a strict `YYYY-MM-DD` date with calendar validation: the shared
model of `DateTime.fromISO` / `DateTime.fromFormat(..., 'yyyy-MM-dd')` on the
date strings this app stores (`none` models an invalid `DateTime`). -/
def parseYmd (cs : List Char) : Option Ymd :=
  match cs with
  | [y1, y2, y3, y4, '-', m1, m2, '-', d1, d2] =>
    if isDigitCh y1 ∧ isDigitCh y2 ∧ isDigitCh y3 ∧ isDigitCh y4 ∧
       isDigitCh m1 ∧ isDigitCh m2 ∧ isDigitCh d1 ∧ isDigitCh d2 then
      let y := digitsVal [y1, y2, y3, y4]
      let m := digitsVal [m1, m2]
      let d := digitsVal [d1, d2]
      if 1 ≤ m ∧ m ≤ 12 ∧ 1 ≤ d ∧ d ≤ daysInMonth y m then some ⟨y, m, d⟩
      else none
    else none
  | _ => none

/-- `DateTime.fromISO` on a string (see `parseYmd`). -/
def parseISODate (s : String) : Option Ymd := parseYmd s.data

/-- Date order (instants at midnight compare by calendar date). -/
def ymdLE (a b : Ymd) : Bool :=
  a.year < b.year ∨
    (a.year = b.year ∧
      (a.month < b.month ∨ (a.month = b.month ∧ a.day ≤ b.day)))

/-- Strict date order. -/
def ymdLT (a b : Ymd) : Bool :=
  a.year < b.year ∨
    (a.year = b.year ∧
      (a.month < b.month ∨ (a.month = b.month ∧ a.day < b.day)))

/-- `endOf('month')` at date precision: the last day of the date's month. -/
def endOfMonth (d : Ymd) : Ymd := ⟨d.year, d.month, daysInMonth d.year d.month⟩

/-- The `[monthStart, monthEnd]` window the code derives from the selected
month string via `DateTime.fromFormat(ym + '-01', 'yyyy-MM-dd')` and
`endOf('month')`; `none` when the month string does not parse. -/
def monthWindow (ym : String) : Option (Ymd × Ymd) :=
  match parseISODate (ym ++ "-01") with
  | some ms => some (ms, endOfMonth ms)
  | none => none

/-- Is the (possibly failed) parsed date inside the (possibly failed) month
window, both ends inclusive?  Comparisons against an invalid `DateTime` are
false in luxon. -/
def inWindow (w : Option (Ymd × Ymd)) (d : Option Ymd) : Bool :=
  match w, d with
  | some (ms, me), some dt => ymdLE ms dt ∧ ymdLE dt me
  | _, _ => false

/-- The `inMonth` helper of `updateDashboardKPIs`: parse the stringified
date value and test it against the selected month's window. -/
def inMonthV (ym : String) (v : Value) : Bool :=
  inWindow (monthWindow ym) (parseISODate (valueToString v))

/-- `item.Due_Date ? DateTime.fromISO(String(item.Due_Date)) : null`, kept
only when valid. -/
def dueDateOf (b : Obj) : Option Ymd :=
  if jsTruthy (getFieldV b "Due_Date") then
    parseISODate (valueToString (getFieldV b "Due_Date"))
  else none

/-- `item.Paid_Date ? DateTime.fromISO(String(item.Paid_Date)) : null`, kept
only when valid. -/
def paidDateOf (b : Obj) : Option Ymd :=
  if jsTruthy (getFieldV b "Paid_Date") then
    parseISODate (valueToString (getFieldV b "Paid_Date"))
  else none

/-- `0`-padded `toISODate()` rendering of a date. -/
def isoDateString (d : Ymd) : String :=
  ⟨padZeros (natChars d.year) 4 ++ '-' ::
    (padZeros (natChars d.month) 2 ++ '-' :: padZeros (natChars d.day) 2)⟩

/-- `monthStart.plus({ months: 1 })` for a first-of-month date. -/
def addOneMonth (d : Ymd) : Ymd :=
  if d.month = 12 then ⟨d.year + 1, 1, d.day⟩ else ⟨d.year, d.month + 1, d.day⟩

/-! ### The record store and its operations (`app.js`) -/

/-- The five named collections. -/
inductive Tab where
  | bills
  | income
  | transactions
  | budgets
  | categories
deriving DecidableEq

/-- `state.data`: the single shared data store. -/
structure StoreData where
  bills : List Obj
  income : List Obj
  transactions : List Obj
  budgets : List Obj
  categories : List Obj
deriving DecidableEq

/-- `state.data[tab]`. -/
def getCol (d : StoreData) : Tab → List Obj
  | .bills => d.bills
  | .income => d.income
  | .transactions => d.transactions
  | .budgets => d.budgets
  | .categories => d.categories

/-- `state.data[tab] = rows`. -/
def setCol (d : StoreData) : Tab → List Obj → StoreData
  | .bills, rows => { d with bills := rows }
  | .income, rows => { d with income := rows }
  | .transactions, rows => { d with transactions := rows }
  | .budgets, rows => { d with budgets := rows }
  | .categories, rows => { d with categories := rows }

/-- One undo snapshot: the affected tab and a deep copy of its collection
(`JSON.parse(JSON.stringify(...))` — an identity on pure data). -/
structure UndoEntry where
  tab : Tab
  data : List Obj
deriving DecidableEq

/-- The app state the claims are about: selected month, data store, and the
undo stack. -/
structure AppState where
  currentMonth : String
  data : StoreData
  undoStack : List UndoEntry
deriving DecidableEq

/-- `pushUndo(tab)`: push a snapshot; on overflow past 20 entries, `shift()`
evicts the oldest. -/
def pushUndo (tab : Tab) (st : AppState) : AppState :=
  let s2 := st.undoStack ++ [⟨tab, getCol st.data tab⟩]
  { st with undoStack := if s2.length > 20 then s2.tail else s2 }

/-- `undoLastAction()`: restore the popped snapshot, or report that there is
nothing to undo.  The returned string is the alert text shown to the user. -/
def undoLastAction (st : AppState) : AppState × String :=
  match st.undoStack.getLast? with
  | none => (st, "Nothing to undo.")
  | some last =>
    ({ st with
        data := setCol st.data last.tab last.data,
        undoStack := st.undoStack.dropLast },
     "Undo complete!")

/-- `String(i.id) === String(id)`. -/
def idMatches (id : String) (r : Obj) : Bool :=
  valueToString (getFieldV r "id") = id

/-- Remove the first element satisfying `p` (`findIndex` + `splice`). -/
def removeFirst (p : α → Bool) : List α → List α
  | [] => []
  | x :: t => if p x then t else x :: removeFirst p t

/-- `deleteRow(tab, id)`: push an undo snapshot, then remove the first
record whose stringified id matches (a silent no-op when none does). -/
def deleteRow (tab : Tab) (id : String) (st : AppState) : AppState :=
  let st1 := pushUndo tab st
  { st1 with data := setCol st1.data tab (removeFirst (idMatches id) (getCol st1.data tab)) }

/-- `deleteBill(id)`: after the confirm dialog, filter the bill out of the
bills collection (note: no undo snapshot is pushed here). -/
def deleteBill (id : String) (confirmOk : Bool) (st : AppState) : AppState :=
  if confirmOk then
    { st with data := { st.data with
        bills := st.data.bills.filter (fun b => valueToString (getFieldV b "id") ≠ id) } }
  else st

/-- The bulk-delete handler wired by `addBulkActionsUI`: with a nonempty
selection and a confirmed dialog, filter out every record whose stringified
id is among the checked ids (note: no undo snapshot is pushed here). -/
def bulkDelete (tab : Tab) (checked : List String) (confirmOk : Bool) (st : AppState) : AppState :=
  if checked ≠ [] ∧ confirmOk then
    { st with data := (setCol st.data tab
        ((getCol st.data tab).filter (fun i => ¬ checked.contains (valueToString (getFieldV i "id"))))) }
  else st

/-- Update the first element satisfying `p` (in-place mutation of the object
`find` returned). -/
def updateFirst (p : α → Bool) (f : α → α) : List α → List α
  | [] => []
  | x :: t => if p x then f x :: t else x :: updateFirst p f t

/-- `String(x.Bill_ID) === String(id)`. -/
def billIdMatches (id : String) (r : Obj) : Bool :=
  valueToString (getFieldV r "Bill_ID") = id

/-- The `mark-paid` quick action `billsActionMarkPaid(id)` wired to the
bills table: set the found bill's `Status` to `'Paid'` and its `Paid_Date`
to today. -/
def billsActionMarkPaid (id : String) (todayIso : String) (st : AppState) : AppState :=
  { st with data := { st.data with
      bills := updateFirst (billIdMatches id)
        (fun b => setValue (setValue b "Status" (.vStr "Paid")) "Paid_Date" (.vStr todayIso))
        st.data.bills } }

/-- The transaction object literal `markBillPaid` pushes. -/
def txObj (idMs : ℕ) (dateV : Value) (desc : Value) (amt : ℚ) (statusStr : String) : Obj :=
  [("id", .vNum idMs), ("date", dateV), ("description", desc),
   ("category", .vStr "Bills"), ("amount", .vNum amt), ("status", .vStr statusStr)]

/-- `String(b.Bill_ID ?? b.id) === String(id)`. -/
def billIdOrIdMatches (id : String) (b : Obj) : Bool :=
  valueToString (jsNN (getFieldV b "Bill_ID") (getFieldV b "id")) = id

/-- `markBillPaid(id)`: push a `'Paid'` transaction for the bill's amount
dated at the start of the selected month, mark the bill paid today, and — for
a confirmed monthly recurring bill — also push a `'Pending'` placeholder for
next month.  `todayIso` is `DateTime.now().toISODate()`, `nowMs` is
`Date.now()`, `confirmNext` the confirm-dialog answer. -/
def markBillPaid (id : String) (todayIso : String) (nowMs : ℕ) (confirmNext : Bool)
    (st : AppState) : AppState :=
  match st.data.bills.find? (billIdOrIdMatches id) with
  | none => st
  | some b =>
    let msOpt := parseISODate (st.currentMonth ++ "-01")
    let dateV : Value :=
      match msOpt with
      | some d => .vStr (isoDateString d)
      | none => .vNull
    let desc := jsOr (getFieldV b "Bill_Name") (getFieldV b "name")
    let amt : ℚ :=
      -|(toNumber (jsNN (getFieldV b "Amount_Due") (jsNN (getFieldV b "amount") (.vNum 0)))).getD 0|
    let bills2 := updateFirst (billIdOrIdMatches id)
      (fun x => setValue (setValue x "Status" (.vStr "Paid")) "Paid_Date" (.vStr todayIso))
      st.data.bills
    let isMonthly :=
      lowerStr (valueToString (jsOr (getFieldV b "Frequency") (jsOr (getFieldV b "recurrence") (.vStr "")))) = "monthly" ∧
      lowerStr (valueToString (jsOr (getFieldV b "Recurring") (.vStr "false"))) = "true"
    let txs2 :=
      if isMonthly ∧ confirmNext then
        let dateV2 : Value :=
          match msOpt with
          | some d => .vStr (isoDateString (addOneMonth d))
          | none => .vNull
        st.data.transactions ++ [txObj nowMs dateV desc amt "Paid",
                                 txObj (nowMs + 1) dateV2 desc amt "Pending"]
      else st.data.transactions ++ [txObj nowMs dateV desc amt "Paid"]
    { st with data := { st.data with bills := bills2, transactions := txs2 } }

/-- `filterToCurrentMonth(tab, data)`: month-window scoping of a collection
against the selected month `ym`. -/
def filterToCurrentMonth (tab : Tab) (ym : String) (data : List Obj) : List Obj :=
  match tab with
  | .bills =>
    data.filter (fun item =>
      inWindow (monthWindow ym) (dueDateOf item) || inWindow (monthWindow ym) (paidDateOf item))
  | .income =>
    data.filter (fun item =>
      startsWithSeq (valueToString (jsOr (getFieldV item "date") (.vStr ""))).data ym.data)
  | .transactions =>
    data.filter (fun item =>
      startsWithSeq (valueToString (jsOr (getFieldV item "date") (.vStr ""))).data ym.data)
  | _ => data

/-- `Math.round` (half toward positive infinity). -/
def jsRound (q : ℚ) : ℤ := ⌊q + 1 / 2⌋

/-- The dashboard KPI numbers. -/
structure Kpis where
  totalIncome : ℚ
  totalExpenses : ℚ
  netAmount : ℚ
  budgetUtilization : ℤ
deriving DecidableEq

/-- The KPI computation of `updateDashboardKPIs()` (the DOM update it feeds
is presentation glue): month-scoped income plus nonnegative month-scoped
transaction amounts, absolute negative month-scoped transaction amounts, the
difference, and the rounded mean budget utilization. -/
def updateDashboardKPIs (st : AppState) : Kpis :=
  let ti1 : ℚ := st.data.income.foldl
    (fun s i => if inMonthV st.currentMonth (getFieldV i "date") then
        s + coerce0 (getFieldV i "amount") else s) 0
  let p := st.data.transactions.foldl
    (fun (p : ℚ × ℚ) t =>
      if inMonthV st.currentMonth (getFieldV t "date") then
        let v := coerce0 (getFieldV t "amount")
        if v ≥ 0 then (p.1 + v, p.2) else (p.1, p.2 + |v|)
      else p) (ti1, 0)
  let bu : ℤ :=
    if st.data.budgets.length ≠ 0 then
      jsRound ((st.data.budgets.foldl (fun s b => s + coerce0 (getFieldV b "utilization")) 0)
        / (st.data.budgets.length : ℚ))
    else 0
  ⟨p.1, p.2, p.1 - p.2, bu⟩

/-! ### Analytics (`renderAnalytics`) -/

/-- `Number(i.amount || 0)` — note: no trailing `|| 0`, so a truthy
non-numeric amount yields `NaN` (`none`). -/
def amountCoerce (i : Obj) : Option ℚ :=
  toNumber (jsOr (getFieldV i "amount") (.vNum 0))

/-- NaN-propagating addition. -/
def nanAdd (a b : Option ℚ) : Option ℚ :=
  match a, b with
  | some x, some y => some (x + y)
  | _, _ => none

/-- NaN-propagating binary max (`Math.max`). -/
def nanMax (a b : Option ℚ) : Option ℚ :=
  match a, b with
  | some x, some y => some (max x y)
  | _, _ => none

/-- NaN-propagating binary min (`Math.min`). -/
def nanMin (a b : Option ℚ) : Option ℚ :=
  match a, b with
  | some x, some y => some (min x y)
  | _, _ => none

/-- `Math.max(...list)`; the empty case (JS `-Infinity`) is unreachable here
because the caller only computes stats for nonempty data. -/
def mathMax (l : List (Option ℚ)) : Option ℚ :=
  match l with
  | [] => none
  | v :: t => t.foldl nanMax v

/-- `Math.min(...list)`; empty case as in `mathMax`. -/
def mathMin (l : List (Option ℚ)) : Option ℚ :=
  match l with
  | [] => none
  | v :: t => t.foldl nanMin v

/-- NaN-propagating division by the (positive) record count. -/
def nanDiv (a : Option ℚ) (n : ℕ) : Option ℚ :=
  match a with
  | some x => some (x / (n : ℚ))
  | none => none

/-- The amount summary block of the analytics bar. -/
structure AmountStats where
  total : Option ℚ
  average : Option ℚ
  maxValue : Option ℚ
  minValue : Option ℚ
deriving DecidableEq

/-- What the analytics bar shows. -/
structure AnalyticsBar where
  amountStats : Option AmountStats
  count : ℕ
deriving DecidableEq

/-- The summary statistics `renderAnalytics(tab, columns, data)` computes
(the HTML it writes is presentation glue): nothing for empty data; amount
stats only when the schema has an `amount` column. -/
def renderAnalytics (columns : List String) (data : List Obj) : Option AnalyticsBar :=
  if data.length ≠ 0 then
    some
      { amountStats :=
          if columns.contains "amount" then
            let total := data.foldl (fun s i => nanAdd s (amountCoerce i)) (some 0)
            some
              { total := total,
                average := nanDiv total data.length,
                maxValue := mathMax (data.map amountCoerce),
                minValue := mathMin (data.map amountCoerce) }
          else none,
        count := data.length }
  else none

/-! ### Sorting (`multiColumnSort`) -/

/-- One sort key with its direction (`dir === 'asc'`). -/
structure SortKey where
  key : String
  asc : Bool

/-- Code-point lexicographic order on character lists; models the string leg
(`localeCompare`) of the comparator.  The claims proved below only exercise
the numeric leg. -/
def charsLt : List Char → List Char → Bool
  | [], [] => false
  | [], _ :: _ => true
  | _ :: _, [] => false
  | a :: as, b :: bs => a < b ∨ (a = b ∧ charsLt as bs)

/-- String comparison result as the comparator returns it. -/
def strCompare (x y : String) : ℚ :=
  if x = y then 0 else if charsLt x.data y.data then -1 else 1

/-- One comparator step: numeric subtraction when `a`'s field is a number
(JS coerces `b`'s field with `ToNumber`; `none` is `NaN`), string comparison
otherwise. -/
def cmpVal (a b : Obj) (k : String) : Option ℚ :=
  match getFieldV a k with
  | .vNum qa =>
    match toNumber (getFieldV b k) with
    | some qb => some (qa - qb)
    | none => none
  | va => some (strCompare (valueToString va) (valueToString (getFieldV b k)))

/-- The full comparator of `multiColumnSort`: first sort key with a nonzero
(or NaN) comparison decides, direction applied by sign flip. -/
def cmpMulti (ks : List SortKey) (a b : Obj) : Option ℚ :=
  match ks with
  | [] => some 0
  | sk :: rest =>
    match cmpVal a b sk.key with
    | none => none
    | some q => if q ≠ 0 then some (if sk.asc then q else -q) else cmpMulti rest a b

/-- Stable insertion of an element before the first existing element it
does not sort after. -/
def insertSorted (le : α → α → Bool) (a : α) : List α → List α
  | [] => [a]
  | b :: l => if le a b then a :: b :: l else b :: insertSorted le a l

/-- A stable comparator sort, the order `Array.prototype.sort` (stable per
the spec) produces for a consistent comparator.  A NaN comparator result is
treated as a tie (engine-defined in JS; unreachable in the claims proved). -/
def jsSort (le : α → α → Bool) (l : List α) : List α :=
  l.foldr (insertSorted le) []

/-- `multiColumnSort(data, sortKeys)`: a stable sort of a copy of the data
under the multi-key comparator. -/
def multiColumnSort (data : List Obj) (ks : List SortKey) : List Obj :=
  jsSort (fun a b => (cmpMulti ks a b).getD 0 ≤ 0) data

/-! ### Overdue derivation (`renderBillsList`'s `isOverdue`) -/

/-- `String(b.Status || '').toLowerCase()`. -/
def statusText (b : Obj) : String :=
  lowerStr (valueToString (jsOr (getFieldV b "Status") (.vStr "")))

/-- The `isOverdue` predicate of `renderBillsList`.  `today` is the current
calendar date and `nowPastMidnight` whether the current instant is past
00:00:00.000 — the code compares the due date's midnight instant against
`DateTime.now()`, so a bill due today counts once the day has started. -/
def isOverdue (today : Ymd) (nowPastMidnight : Bool) (b : Obj) : Bool :=
  if statusText b = "overdue" then true
  else if statusText b = "paid" ∨ statusText b = "auto-paid" then false
  else
    match dueDateOf b with
    | some due => ymdLT due today || (decide (due = today) && nowPastMidnight)
    | none => false

/-! ### Claim-side (specification) definitions

These follow the spec's wording and are compared against the code-side
definitions above. -/

/-- The overdue predicate as the spec states it: the status text already
says "overdue", OR the status is neither "paid" nor "auto-paid" AND the due
date is strictly before the current day. -/
def specOverdue (today : Ymd) (b : Obj) : Bool :=
  if statusText b = "overdue" then true
  else if statusText b = "paid" ∨ statusText b = "auto-paid" then false
  else
    match dueDateOf b with
    | some due => ymdLT due today
    | none => false

/-- Spec `kpis.totalIncome`: the sum of income amounts dated in the month
plus the sum of positive transaction amounts dated in the month. -/
def specTotalIncome (st : AppState) : ℚ :=
  ((st.data.income.filter (fun i => inMonthV st.currentMonth (getFieldV i "date"))).map
      (fun i => coerce0 (getFieldV i "amount"))).sum +
  ((st.data.transactions.filter (fun t =>
        inMonthV st.currentMonth (getFieldV t "date") ∧ 0 < coerce0 (getFieldV t "amount"))).map
      (fun t => coerce0 (getFieldV t "amount"))).sum

/-- Spec `kpis.totalExpenses`: the sum of absolute values of negative
transaction amounts dated in the month. -/
def specTotalExpenses (st : AppState) : ℚ :=
  ((st.data.transactions.filter (fun t =>
        inMonthV st.currentMonth (getFieldV t "date") ∧ coerce0 (getFieldV t "amount") < 0)).map
      (fun t => |coerce0 (getFieldV t "amount")|)).sum

/-- Spec `kpis.budgetUtilizationPercent`: the rounded mean of the budget
records' utilization fields, `0` when there are no budgets. -/
def specBudgetUtilization (st : AppState) : ℤ :=
  if st.data.budgets = [] then 0
  else
    jsRound ((st.data.budgets.map (fun b => coerce0 (getFieldV b "utilization"))).sum
      / (st.data.budgets.length : ℚ))

/-- Spec month scoping for a bill: its due date or its paid date falls
within `[monthStart, monthEnd]`, both ends inclusive; records with invalid
(or absent) dates never match. -/
def specBillInWindow (ms me : Ymd) (b : Obj) : Bool :=
  (match dueDateOf b with
   | some d => ymdLE ms d && ymdLE d me
   | none => false) ||
  (match paidDateOf b with
   | some d => ymdLE ms d && ymdLE d me
   | none => false)

/-- Spec month scoping for income/transaction records: the date string has
the selected month as its `"YYYY-MM"` prefix. -/
def specDatePrefix (ym : String) (r : Obj) : Bool :=
  startsWithSeq (valueToString (jsOr (getFieldV r "date") (.vStr ""))).data ym.data

/-- Spec summary total: the sum of numeric coercions of the amount field,
non-numeric treated as `0`. -/
def specTotal (data : List Obj) : ℚ :=
  (data.map (fun i => (amountCoerce i).getD 0)).sum

/-- Maximum of a list of rationals (for the nonempty data the analytics bar
summarizes). -/
def specMaxL : List ℚ → ℚ
  | [] => 0
  | x :: t => t.foldl max x

/-- Minimum of a list of rationals. -/
def specMinL : List ℚ → ℚ
  | [] => 0
  | x :: t => t.foldl min x

/-- "Same record up to column order": equal field lookups everywhere. -/
def recEquiv (r1 r2 : Obj) : Prop :=
  ∀ k : String, List.lookup k r1 = List.lookup k r2

/-- A CSV field is good when it embeds no separator structure (no comma,
newline or carriage return) and carries no surrounding whitespace (the
parser would trim it away anyway). -/
def goodField (f : List Char) : Prop :=
  (∀ c ∈ f, ¬ (c = ',' ∨ c = '\n' ∨ c = '\r')) ∧ jsTrim f = f

instance (f : List Char) : Decidable (goodField f) :=
  inferInstanceAs
    (Decidable ((∀ c ∈ f, ¬ (c = ',' ∨ c = '\n' ∨ c = '\r')) ∧ jsTrim f = f))

/-! ### Concrete data for counterexamples and witnesses -/

/-- The header fields of the round-trip witness CSV (the bills schema). -/
def exCsvHeader : List (List Char) := billsSchema.map String.data

/-- The single data row of the round-trip witness CSV. -/
def exCsvRow : List (List Char) :=
  ["1".data, "Rent".data, "Housing".data, "12.5".data, "2024-01-31".data,
   "".data, "Unpaid".data, "Yes".data, "monthly".data, "card".data, "note".data]

/-- The round-trip witness CSV text. -/
def exCsvText : List Char :=
  joinSep ['\n'] (joinSep [','] exCsvHeader :: [exCsvRow].map (joinSep [',']))

/-- A one-bill store (legacy `id` key) used to exhibit the missing undo
snapshot on the quick-action delete path. -/
def exBillLegacy : Obj := [("id", .vStr "1"), ("name", .vStr "Rent")]

/-- State holding just `exBillLegacy`, with an empty undo stack. -/
def exState4 : AppState := ⟨"2024-01", ⟨[exBillLegacy], [], [], [], []⟩, []⟩

/-- A pending bill due on 2024-01-15. -/
def exBillDueToday : Obj :=
  [("Status", .vStr "Pending"), ("Due_Date", .vStr "2024-01-15")]

/-- A bill with a negative amount due (a credit), used to separate
"negation" from "negated absolute value". -/
def exBillCredit : Obj :=
  [("Bill_ID", .vStr "1"), ("Bill_Name", .vStr "Rebate"), ("Amount_Due", .vNum (-50))]

/-- State holding just `exBillCredit`. -/
def exState7 : AppState := ⟨"2024-01", ⟨[exBillCredit], [], [], [], []⟩, []⟩

/-- The claim's example bill: id 1, amount due 1200, due 2024-01-01. -/
def exBillRent : Obj :=
  [("Bill_ID", .vStr "1"), ("Bill_Name", .vStr "Rent"), ("Category", .vStr "Housing"),
   ("Amount_Due", .vNum 1200), ("Due_Date", .vStr "2024-01-01"),
   ("Status", .vStr "Pending")]

/-- State holding `exBillRent` and one pre-existing transaction. -/
def exState7b : AppState :=
  ⟨"2024-01",
   ⟨[exBillRent], [],
    [[("id", .vNum 7), ("date", .vStr "2024-01-02"), ("amount", .vNum (-3))]],
    [], []⟩, []⟩

/-- A record whose amount text is not numeric. -/
def exBadAmount : Obj := [("amount", .vStr "abc")]

/-- Two records sharing the same numeric amount but differing elsewhere. -/
def exDupA : Obj := [("id", .vStr "1"), ("amount", .vNum 5)]

/-- See `exDupA`. -/
def exDupB : Obj := [("id", .vStr "2"), ("amount", .vNum 5)]

/-- Distinct-amount records for the sort witness. -/
def exSortA : Obj := [("id", .vStr "1"), ("amount", .vNum 3)]

/-- See `exSortA`. -/
def exSortB : Obj := [("id", .vStr "2"), ("amount", .vNum 7)]

/-- See `exSortA`. -/
def exSortC : Obj := [("id", .vStr "3"), ("amount", .vNum 5)]

/-- A small mixed store used by several witnesses: January income and
transactions plus one budget. -/
def exStateK : AppState :=
  ⟨"2024-01",
   ⟨[exBillRent],
    [[("id", .vNum 1), ("source", .vStr "Job"), ("amount", .vNum 1000), ("date", .vStr "2024-01-05")],
     [("id", .vNum 2), ("source", .vStr "Gift"), ("amount", .vStr "abc"), ("date", .vStr "2024-01-06")],
     [("id", .vNum 3), ("source", .vStr "Old"), ("amount", .vNum 400), ("date", .vStr "2023-12-30")]],
    [[("id", .vNum 4), ("date", .vStr "2024-01-10"), ("amount", .vNum (-120)), ("category", .vStr "Food")],
     [("id", .vNum 5), ("date", .vStr "2024-01-11"), ("amount", .vNum 50)],
     [("id", .vNum 6), ("date", .vStr "2024-01-12"), ("amount", .vNum 0)],
     [("id", .vNum 7), ("date", .vStr "2024-02-01"), ("amount", .vNum (-999))]],
    [[("id", .vNum 8), ("name", .vStr "Food"), ("utilization", .vNum 70)],
     [("id", .vNum 9), ("name", .vStr "Fun"), ("utilization", .vNum 31)]],
    [[("id", .vNum 10), ("category", .vStr "Food")]]⟩,
   []⟩

/-- A store state whose records all lie outside 2031-05. -/
def exStateEmptyMonth : AppState :=
  ⟨"2031-05", (exStateK.data), []⟩

/-- State with a full (20-entry) undo stack, for the overflow behavior. -/
def exStateFull : AppState :=
  ⟨"2024-01", ⟨[exBillLegacy], [], [], [], []⟩,
   List.replicate 20 ⟨Tab.income, []⟩⟩

/-! ## Theorems -/

/-! ### Store helper lemmas -/

theorem getCol_setCol_self (d : StoreData) (t : Tab) (x : List Obj) :
    getCol (setCol d t x) t = x := by
  cases t <;> rfl

theorem setCol_getCol_self (d : StoreData) (t : Tab) :
    setCol d t (getCol d t) = d := by
  cases t <;> rfl

theorem setCol_setCol (d : StoreData) (t : Tab) (x y : List Obj) :
    setCol (setCol d t x) t y = setCol d t y := by
  cases t <;> rfl

theorem tail_append_singleton_of_ne_nil {α : Type} {u : List α} (e : α) (h : u ≠ []) :
    (u ++ [e]).tail = u.tail ++ [e] := by
  cases u with
  | nil => exact absurd rfl h
  | cons a t => rfl

/-! ### C3: delete then undo -/

/-- C3: deleting a record by id and then immediately undoing restores the
entire data store (in particular the affected collection) to its exact
pre-delete contents, and undoing with an empty undo stack leaves the state
unchanged while producing the user-visible "Nothing to undo." alert. -/
theorem c3_delete_undo_roundtrip (st : AppState) (tab : Tab) (id : String) :
    (undoLastAction (deleteRow tab id st)).1.data = st.data ∧
    (st.undoStack = [] → undoLastAction st = (st, "Nothing to undo.")) := by
  constructor
  · unfold deleteRow pushUndo undoLastAction
    by_cases h : (st.undoStack ++ [(⟨tab, getCol st.data tab⟩ : UndoEntry)]).length > 20
    · have hu : st.undoStack ≠ [] := by
        intro hnil
        rw [hnil] at h
        simp at h
      simp only [h, if_pos]
      rw [tail_append_singleton_of_ne_nil _ hu]
      rw [List.getLast?_concat]
      simp only [setCol_setCol, setCol_getCol_self]
    · simp only [h, if_neg, ite_false]
      rw [List.getLast?_concat]
      simp only [setCol_setCol, setCol_getCol_self]
  · intro h
    unfold undoLastAction
    rw [h]
    rfl

/-- C3 witness: a concrete delete-then-undo restores the store, and a
concrete undo on an empty stack is a visible no-op. -/
theorem c3_delete_undo_roundtrip_witness :
    (undoLastAction (deleteRow .bills "1" exState4)).1.data = exState4.data ∧
    undoLastAction exState4 = (exState4, "Nothing to undo.") :=
  ⟨(c3_delete_undo_roundtrip exState4 .bills "1").1,
   (c3_delete_undo_roundtrip exState4 .bills "1").2 rfl⟩

/-! ### C4: every delete pushes an undo snapshot (refuted), stack cap -/

/-- C4 counterexample: the bills quick-action delete `deleteBill` removes a
record (the bills collection changes) yet pushes nothing onto the undo
stack, which stays empty — so not every delete is preceded by a snapshot
push. -/
theorem c4_delete_without_snapshot :
    (deleteBill "1" true exState4).data.bills ≠ exState4.data.bills ∧
    (deleteBill "1" true exState4).undoStack = [] ∧
    (bulkDelete .bills ["1"] true exState4).data.bills ≠ exState4.data.bills ∧
    (bulkDelete .bills ["1"] true exState4).undoStack = [] := by
  refine ⟨by decide, by decide, by decide, by decide⟩

/-- C4 amended: the single-record `deleteRow` delete is preceded by pushing
a deep-copy snapshot of the affected collection's pre-delete state (the
snapshot sits on top of the stack afterwards), while the bills quick-action
delete and the bulk delete push no snapshot; the undo stack never exceeds 20
entries, and on overflow the oldest entry is evicted first. -/
theorem c4_undo_stack_discipline (st : AppState) (tab : Tab) (id : String)
    (checked : List String) (confirmOk : Bool) :
    (deleteRow tab id st).undoStack.getLast? = some ⟨tab, getCol st.data tab⟩ ∧
    (deleteBill id confirmOk st).undoStack = st.undoStack ∧
    (bulkDelete tab checked confirmOk st).undoStack = st.undoStack ∧
    (st.undoStack.length ≤ 20 → (pushUndo tab st).undoStack.length ≤ 20) ∧
    (st.undoStack.length = 20 →
      (pushUndo tab st).undoStack = st.undoStack.tail ++ [⟨tab, getCol st.data tab⟩]) := by
  refine ⟨?_, ?_, ?_, ?_, ?_⟩
  · unfold deleteRow pushUndo
    by_cases h : (st.undoStack ++ [(⟨tab, getCol st.data tab⟩ : UndoEntry)]).length > 20
    · have hu : st.undoStack ≠ [] := by
        intro hnil
        rw [hnil] at h
        simp at h
      simp only [h, if_pos]
      rw [tail_append_singleton_of_ne_nil _ hu, List.getLast?_concat]
    · simp only [h, if_neg, ite_false, List.getLast?_concat]
  · unfold deleteBill
    by_cases h : confirmOk <;> simp [h]
  · unfold bulkDelete
    by_cases h : checked ≠ [] ∧ confirmOk = true <;> simp [h]
  · intro hle
    unfold pushUndo
    by_cases h : (st.undoStack ++ [(⟨tab, getCol st.data tab⟩ : UndoEntry)]).length > 20
    · simp only [h, if_pos]
      simp only [List.length_tail, List.length_append, List.length_singleton]
      omega
    · simp only [h, if_neg, ite_false]
      simp only [List.length_append, List.length_singleton] at h ⊢
      omega
  · intro h20
    unfold pushUndo
    have hlen : (st.undoStack ++ [(⟨tab, getCol st.data tab⟩ : UndoEntry)]).length > 20 := by
      simp [h20]
    have hu : st.undoStack ≠ [] := by
      intro hnil
      rw [hnil] at h20
      simp at h20
    simp only [hlen, if_pos]
    rw [tail_append_singleton_of_ne_nil _ hu]

/-- C4 witness: the amended statement at a concrete state with a full
(20-entry) undo stack, the implications discharged there. -/
theorem c4_undo_stack_discipline_witness :
    (deleteRow .bills "1" exStateFull).undoStack.getLast? =
      some ⟨.bills, getCol exStateFull.data .bills⟩ ∧
    (deleteBill "1" true exStateFull).undoStack = exStateFull.undoStack ∧
    (bulkDelete .bills ["1"] true exStateFull).undoStack = exStateFull.undoStack ∧
    (pushUndo .bills exStateFull).undoStack.length ≤ 20 ∧
    (pushUndo .bills exStateFull).undoStack =
      exStateFull.undoStack.tail ++ [⟨.bills, getCol exStateFull.data .bills⟩] :=
  ⟨(c4_undo_stack_discipline exStateFull .bills "1" ["1"] true).1,
   (c4_undo_stack_discipline exStateFull .bills "1" ["1"] true).2.1,
   (c4_undo_stack_discipline exStateFull .bills "1" ["1"] true).2.2.1,
   (c4_undo_stack_discipline exStateFull .bills "1" ["1"] true).2.2.2.1 (by decide),
   (c4_undo_stack_discipline exStateFull .bills "1" ["1"] true).2.2.2.2 (by decide)⟩

/-! ### Object and list update lemmas -/

theorem lookup_setValue_self (r : Obj) (k : String) (v : Value) :
    List.lookup k (setValue r k v) = some v := by
  induction r with
  | nil => simp [setValue, List.lookup]
  | cons h t ih =>
    obtain ⟨k0, v0⟩ := h
    by_cases hk : k0 = k
    · simp [setValue, hk, List.lookup]
    · have hb : (k == k0) = false := by
        simp [Ne.symm hk]
      simp [setValue, hk, List.lookup, hb, ih]

theorem lookup_setValue_ne (r : Obj) (k k2 : String) (v : Value) (h : k2 ≠ k) :
    List.lookup k2 (setValue r k v) = List.lookup k2 r := by
  have hb : (k2 == k) = false := by simp [h]
  induction r with
  | nil => simp [setValue, List.lookup, hb]
  | cons hd t ih =>
    obtain ⟨k0, v0⟩ := hd
    by_cases hk : k0 = k
    · subst hk
      simp [setValue, List.lookup, hb]
    · by_cases h2 : k2 = k0
      · simp [setValue, hk, List.lookup, h2]
      · have hb2 : (k2 == k0) = false := by simp [h2]
        simp [setValue, hk, List.lookup, hb2, ih]

theorem updateFirst_length {α : Type} (p : α → Bool) (f : α → α) (l : List α) :
    (updateFirst p f l).length = l.length := by
  induction l with
  | nil => rfl
  | cons a t ih =>
    by_cases h : p a
    · simp [updateFirst, h]
    · simp [updateFirst, h, ih]

theorem updateFirst_getq {α : Type} (p : α → Bool) (f : α → α) (l : List α) (j : ℕ) :
    (updateFirst p f l).get? j =
      if j = l.findIdx p then (l.get? j).map f else l.get? j := by
  induction l generalizing j with
  | nil => simp [updateFirst]
  | cons a t ih =>
    by_cases h : p a
    · simp only [updateFirst, h, ite_true, List.findIdx_cons, cond_true]
      cases j with
      | zero => simp
      | succ n => simp
    · have hb : p a = false := by simpa using h
      simp only [updateFirst, hb, Bool.false_eq_true, ite_false, List.findIdx_cons, cond_false]
      cases j with
      | zero => simp
      | succ n =>
        simp only [List.get?_cons_succ]
        rw [ih]
        by_cases hj : n = t.findIdx p
        · simp [hj]
        · have hj2 : ¬(n + 1 = t.findIdx p + 1) := by omega
          simp [hj, hj2]

/-! ### C10: the mark-paid quick action touches only Status and Paid_Date -/

/-- C10: `billsActionMarkPaid` leaves the month, the undo stack and the
income/transactions/budgets/categories collections untouched; the bills
collection keeps its length, every bill other than the first id match is
unchanged, no field other than `Status`/`Paid_Date` of any bill changes, and
the matched bill's `Status` becomes `"Paid"` with `Paid_Date` set to today. -/
theorem c10_mark_paid_frame (st : AppState) (id todayIso : String) :
    (billsActionMarkPaid id todayIso st).currentMonth = st.currentMonth ∧
    (billsActionMarkPaid id todayIso st).undoStack = st.undoStack ∧
    (billsActionMarkPaid id todayIso st).data.income = st.data.income ∧
    (billsActionMarkPaid id todayIso st).data.transactions = st.data.transactions ∧
    (billsActionMarkPaid id todayIso st).data.budgets = st.data.budgets ∧
    (billsActionMarkPaid id todayIso st).data.categories = st.data.categories ∧
    (billsActionMarkPaid id todayIso st).data.bills.length = st.data.bills.length ∧
    (∀ j, j ≠ st.data.bills.findIdx (billIdMatches id) →
      (billsActionMarkPaid id todayIso st).data.bills.getD j [] = st.data.bills.getD j []) ∧
    (∀ j k, ¬(k = "Status" ∨ k = "Paid_Date") →
      List.lookup k ((billsActionMarkPaid id todayIso st).data.bills.getD j []) =
        List.lookup k (st.data.bills.getD j [])) ∧
    (∀ j, j = st.data.bills.findIdx (billIdMatches id) → j < st.data.bills.length →
      List.lookup "Status" ((billsActionMarkPaid id todayIso st).data.bills.getD j []) =
        some (.vStr "Paid") ∧
      List.lookup "Paid_Date" ((billsActionMarkPaid id todayIso st).data.bills.getD j []) =
        some (.vStr todayIso)) := by
  refine ⟨rfl, rfl, rfl, rfl, rfl, rfl, updateFirst_length _ _ _, ?_, ?_, ?_⟩
  · intro j hj
    show (updateFirst (billIdMatches id) _ st.data.bills).getD j [] = _
    unfold List.getD
    rw [updateFirst_getq]
    simp [hj]
  · intro j k hk
    push_neg at hk
    show List.lookup k ((updateFirst (billIdMatches id) _ st.data.bills).getD j []) = _
    unfold List.getD
    rw [updateFirst_getq]
    by_cases hj : j = st.data.bills.findIdx (billIdMatches id)
    · simp only [hj, ite_true]
      cases hb : st.data.bills.get? (st.data.bills.findIdx (billIdMatches id)) with
      | none => simp
      | some b =>
        simp only [Option.map_some', Option.getD_some]
        rw [lookup_setValue_ne _ _ _ _ hk.2, lookup_setValue_ne _ _ _ _ hk.1]
    · simp [hj]
  · intro j hj hlt
    show List.lookup "Status" ((updateFirst (billIdMatches id) _ st.data.bills).getD j []) =
        some (.vStr "Paid") ∧
      List.lookup "Paid_Date" ((updateFirst (billIdMatches id) _ st.data.bills).getD j []) =
        some (.vStr todayIso)
    unfold List.getD
    rw [updateFirst_getq]
    simp only [hj, ite_true]
    rw [← hj]
    cases hb : st.data.bills.get? j with
    | none =>
      rw [List.get?_eq_none] at hb
      omega
    | some b =>
      simp only [Option.map_some', Option.getD_some]
      constructor
      · rw [lookup_setValue_ne _ _ _ _ (by decide), lookup_setValue_self]
      · rw [lookup_setValue_self]

/-- C10 witness: the frame property applied at a concrete one-bill store,
with the quantified hypotheses discharged at concrete indices and field. -/
theorem c10_mark_paid_frame_witness :
    (billsActionMarkPaid "1" "2024-01-15" exState7b).data.transactions =
      exState7b.data.transactions ∧
    (billsActionMarkPaid "1" "2024-01-15" exState7b).data.bills.getD 1 [] =
      exState7b.data.bills.getD 1 [] ∧
    List.lookup "Category" ((billsActionMarkPaid "1" "2024-01-15" exState7b).data.bills.getD 0 []) =
      List.lookup "Category" (exState7b.data.bills.getD 0 []) ∧
    List.lookup "Status" ((billsActionMarkPaid "1" "2024-01-15" exState7b).data.bills.getD 0 []) =
      some (.vStr "Paid") :=
  ⟨(c10_mark_paid_frame exState7b "1" "2024-01-15").2.2.2.1,
   (c10_mark_paid_frame exState7b "1" "2024-01-15").2.2.2.2.2.2.2.1 1 (by decide),
   (c10_mark_paid_frame exState7b "1" "2024-01-15").2.2.2.2.2.2.2.2.1 0 "Category" (by decide),
   ((c10_mark_paid_frame exState7b "1" "2024-01-15").2.2.2.2.2.2.2.2.2 0 (by decide) (by decide)).1⟩

/-! ### C6: the overdue predicate -/

/-- C6 counterexample: a pending bill due *today* (2024-01-15) is already
overdue for the code once the current instant is past midnight, while the
claim ("due date strictly before the current day") says it is not. -/
theorem c6_due_today_counts_overdue :
    isOverdue ⟨2024, 1, 15⟩ true exBillDueToday = true ∧
    specOverdue ⟨2024, 1, 15⟩ exBillDueToday = false := by
  refine ⟨by decide, by decide⟩

/-- C6 amended: a bill is overdue exactly when its status text already says
"overdue" (case-insensitively), or the status is neither "paid" nor
"auto-paid" and the due date's midnight instant is strictly before the
current instant — i.e. the due date is strictly before the current day, or
equals it with the current time past midnight. -/
theorem c6_overdue_characterization (today : Ymd) (pastMidnight : Bool) (b : Obj) :
    isOverdue today pastMidnight b = true ↔
      (statusText b = "overdue" ∨
        (statusText b ≠ "paid" ∧ statusText b ≠ "auto-paid" ∧
          ∃ due, dueDateOf b = some due ∧
            (ymdLT due today = true ∨ (due = today ∧ pastMidnight = true)))) := by
  by_cases h1 : statusText b = "overdue"
  · simp [isOverdue, h1]
  · by_cases h2 : statusText b = "paid" ∨ statusText b = "auto-paid"
    · have hov : isOverdue today pastMidnight b = false := by
        unfold isOverdue
        simp [h1, h2]
      rw [hov]
      simp only [Bool.false_eq_true, false_iff]
      rintro (hc | ⟨hp, ha, _⟩)
      · exact h1 hc
      · rcases h2 with h2 | h2
        · exact hp h2
        · exact ha h2
    · push_neg at h2
      have hov : isOverdue today pastMidnight b =
          (match dueDateOf b with
           | some due => ymdLT due today || (decide (due = today) && pastMidnight)
           | none => false) := by
        unfold isOverdue
        rw [if_neg h1, if_neg (not_or.mpr ⟨h2.1, h2.2⟩)]
      rw [hov]
      cases hd : dueDateOf b with
      | none =>
        simp only [Bool.false_eq_true, false_iff]
        rintro (hc | ⟨_, _, due, hdue, _⟩)
        · exact h1 hc
        · exact Option.noConfusion hdue
      | some due =>
        constructor
        · intro hc
          have hc2 : ymdLT due today = true ∨ (due = today ∧ pastMidnight = true) := by
            simpa using hc
          exact Or.inr ⟨h2.1, h2.2, due, rfl, hc2⟩
        · rintro (hc | ⟨_, _, due2, hdue2, hcond⟩)
          · exact absurd hc h1
          · injection hdue2 with hdd
            subst hdd
            rcases hcond with hlt | ⟨heq, hpm⟩
            · simp [hlt]
            · subst heq
              simp [hpm]

/-! ### Sorting lemmas -/

theorem insertSorted_perm {α : Type} (le : α → α → Bool) (a : α) (l : List α) :
    (insertSorted le a l).Perm (a :: l) := by
  induction l with
  | nil => exact List.Perm.refl _
  | cons b t ih =>
    by_cases h : le a b
    · simp [insertSorted, h]
    · simp only [insertSorted, h, Bool.false_eq_true, ite_false]
      exact (ih.cons b).trans (List.Perm.swap a b t)

theorem jsSort_perm {α : Type} (le : α → α → Bool) (l : List α) :
    (jsSort le l).Perm l := by
  induction l with
  | nil => exact List.Perm.refl _
  | cons a t ih =>
    exact (insertSorted_perm le a (jsSort le t)).trans (ih.cons a)

theorem insertSorted_congr {α : Type} (le le2 : α → α → Bool) (a : α) (l : List α)
    (h : ∀ y ∈ l, le a y = le2 a y) :
    insertSorted le a l = insertSorted le2 a l := by
  induction l with
  | nil => rfl
  | cons b t ih =>
    have hb : le a b = le2 a b := h b (List.mem_cons_self b t)
    by_cases hab : le a b
    · have hab2 : le2 a b = true := by
        rw [← hb]
        exact hab
      simp [insertSorted, hab, hab2]
    · have hab2 : le2 a b = false := by
        rw [← hb]
        simpa using hab
      simp only [insertSorted, hab, hab2, Bool.false_eq_true, ite_false]
      rw [ih (fun y hy => h y (List.mem_cons_of_mem b hy))]

theorem jsSort_congr {α : Type} (le le2 : α → α → Bool) (l : List α)
    (h : ∀ x ∈ l, ∀ y ∈ l, le x y = le2 x y) :
    jsSort le l = jsSort le2 l := by
  induction l with
  | nil => rfl
  | cons a t ih =>
    show insertSorted le a (jsSort le t) = insertSorted le2 a (jsSort le2 t)
    rw [ih (fun x hx y hy => h x (List.mem_cons_of_mem a hx) y (List.mem_cons_of_mem a hy))]
    apply insertSorted_congr
    intro y hy
    have hyt : y ∈ t := ((jsSort_perm le2 t).mem_iff).mp hy
    exact h a (List.mem_cons_self a t) y (List.mem_cons_of_mem a hyt)

theorem insertSorted_pairwise {α : Type} {le : α → α → Bool}
    (htot : ∀ x y, le x y = true ∨ le y x = true)
    (htrans : ∀ x y z, le x y = true → le y z = true → le x z = true)
    (a : α) (l : List α) (hl : l.Pairwise fun x y => le x y = true) :
    (insertSorted le a l).Pairwise fun x y => le x y = true := by
  induction l with
  | nil =>
    simp [insertSorted]
  | cons b t ih =>
    rcases List.pairwise_cons.mp hl with ⟨hb, ht⟩
    by_cases hab : le a b
    · simp only [insertSorted, hab, ite_true]
      refine List.pairwise_cons.mpr ⟨?_, hl⟩
      intro y hy
      rcases List.mem_cons.mp hy with hyb | hyt
      · subst hyb
        exact hab
      · exact htrans a b y hab (hb y hyt)
    · simp only [insertSorted, hab, Bool.false_eq_true, ite_false]
      refine List.pairwise_cons.mpr ⟨?_, ih ht⟩
      intro y hy
      have hyat : y ∈ a :: t := ((insertSorted_perm le a t).mem_iff).mp hy
      rcases List.mem_cons.mp hyat with hya | hyt
      · subst hya
        rcases htot y b with h | h
        · exact absurd h hab
        · exact h
      · exact hb y hyt

theorem jsSort_pairwise {α : Type} {le : α → α → Bool}
    (htot : ∀ x y, le x y = true ∨ le y x = true)
    (htrans : ∀ x y z, le x y = true → le y z = true → le x z = true)
    (l : List α) :
    (jsSort le l).Pairwise fun x y => le x y = true := by
  induction l with
  | nil => exact List.Pairwise.nil
  | cons a t ih => exact insertSorted_pairwise htot htrans a (jsSort le t) ih

theorem eq_of_perm_pairwise {α : Type} {R : α → α → Prop} :
    ∀ (l1 l2 : List α), l1.Perm l2 → l1.Pairwise R → l2.Pairwise R →
      (∀ a ∈ l1, ∀ b ∈ l1, R a b → R b a → a = b) → l1 = l2 := by
  intro l1
  induction l1 with
  | nil =>
    intro l2 hp _ _ _
    exact hp.nil_eq
  | cons a t1 ih =>
    intro l2 hp h1 h2 hanti
    cases l2 with
    | nil => exact absurd hp.symm.nil_eq (by simp)
    | cons b t2 =>
      have hab : a = b := by
        by_cases heq : a = b
        · exact heq
        · have hain2 : a ∈ b :: t2 := hp.mem_iff.mp (List.mem_cons_self a t1)
          have hbin1 : b ∈ a :: t1 := hp.symm.mem_iff.mp (List.mem_cons_self b t2)
          have hat2 : a ∈ t2 := by
            rcases List.mem_cons.mp hain2 with h | h
            · exact absurd h heq
            · exact h
          have hbt1 : b ∈ t1 := by
            rcases List.mem_cons.mp hbin1 with h | h
            · exact absurd h.symm heq
            · exact h
          have hRab : R a b := (List.pairwise_cons.mp h1).1 b hbt1
          have hRba : R b a := (List.pairwise_cons.mp h2).1 a hat2
          exact hanti a (List.mem_cons_self a t1) b (List.mem_cons_of_mem a hbt1) hRab hRba
      subst hab
      have hpt : t1.Perm t2 := hp.cons_inv
      have := ih t2 hpt (List.pairwise_cons.mp h1).2 (List.pairwise_cons.mp h2).2
        (fun x hx y hy => hanti x (List.mem_cons_of_mem a hx) y (List.mem_cons_of_mem a hy))
      rw [this]

theorem pairwise_key_inj {α β : Type} (f : α → β) :
    ∀ (l : List α), (l.Pairwise fun a b => f a ≠ f b) →
      ∀ a ∈ l, ∀ b ∈ l, f a = f b → a = b := by
  intro l
  induction l with
  | nil =>
    intro _ a ha
    exact absurd ha (by simp)
  | cons x t ih =>
    intro hp a ha b hb hfab
    rcases List.pairwise_cons.mp hp with ⟨hx, ht⟩
    rcases List.mem_cons.mp ha with ha1 | ha2 <;> rcases List.mem_cons.mp hb with hb1 | hb2
    · rw [ha1, hb1]
    · subst ha1
      exact absurd hfab (hx b hb2)
    · subst hb1
      exact absurd hfab.symm (hx a ha2)
    · exact ih ht a ha2 b hb2 hfab

/-! ### C9: ascending then descending numeric sort -/

/-- Evaluate the comparator on records whose sort-key fields are numeric. -/
theorem cmpMulti_eval_num (k : String) (asc : Bool) (x y : Obj) (qx qy : ℚ)
    (hx : getFieldV x k = .vNum qx) (hy : getFieldV y k = .vNum qy) :
    cmpMulti [⟨k, asc⟩] x y = some (if qx = qy then 0 else if asc then qx - qy else qy - qx) := by
  simp only [cmpMulti, cmpVal, hx, hy, toNumber]
  by_cases hq : qx = qy
  · subst hq
    simp
  · have hne : qx - qy ≠ 0 := sub_ne_zero_of_ne hq
    cases asc <;> simp [hne, hq, neg_sub]

/-- C9 counterexample: with two distinct records sharing the same numeric
amount, the stable descending sort is *not* the reverse of the stable
ascending sort (ties keep their original order in both directions). -/
theorem c9_duplicate_keys_not_reversed :
    multiColumnSort [exDupA, exDupB] [⟨"amount", false⟩] ≠
      (multiColumnSort [exDupA, exDupB] [⟨"amount", true⟩]).reverse := by
  have hsame : ∀ asc : Bool,
      multiColumnSort [exDupA, exDupB] [⟨"amount", asc⟩] = [exDupA, exDupB] := by
    intro asc
    have hcmp : cmpMulti [⟨"amount", asc⟩] exDupA exDupB = some 0 := by
      rw [cmpMulti_eval_num "amount" asc exDupA exDupB 5 5 (by decide) (by decide)]
      simp
    show jsSort _ [exDupA, exDupB] = [exDupA, exDupB]
    simp [jsSort, insertSorted, hcmp]
  rw [hsame true, hsame false]
  decide

theorem c9_le_asc_eval (k : String) (x y : Obj) (qx qy : ℚ)
    (hx : getFieldV x k = .vNum qx) (hy : getFieldV y k = .vNum qy) :
    (decide ((cmpMulti [⟨k, true⟩] x y).getD 0 ≤ 0) : Bool) = decide (qx ≤ qy) := by
  rw [cmpMulti_eval_num k true x y qx qy hx hy]
  by_cases hq : qx = qy
  · simp [hq]
  · simp only [hq, ite_false, ite_true, Option.getD_some]
    by_cases hle : qx ≤ qy
    · simp [hle, sub_nonpos.mpr hle]
    · have : ¬ (qx - qy ≤ 0) := fun hc => hle (sub_nonpos.mp hc)
      simp [hle, this]

theorem c9_le_desc_eval (k : String) (x y : Obj) (qx qy : ℚ)
    (hx : getFieldV x k = .vNum qx) (hy : getFieldV y k = .vNum qy) :
    (decide ((cmpMulti [⟨k, false⟩] x y).getD 0 ≤ 0) : Bool) = decide (qy ≤ qx) := by
  rw [cmpMulti_eval_num k false x y qx qy hx hy]
  by_cases hq : qx = qy
  · simp [hq]
  · simp only [hq, ite_false, Option.getD_some]
    by_cases hle : qy ≤ qx
    · simp [hle, sub_nonpos.mpr hle]
    · have : ¬ (qy - qx ≤ 0) := fun hc => hle (sub_nonpos.mp hc)
      simp [hle, this]

/-- C9 amended: sorting by a numeric column whose values are pairwise
distinct in ascending order and then in descending order yields exactly the
reversed order.  (With duplicated key values the stable sort preserves the
original relative order of ties in both directions, so exact reversal fails —
see the counterexample; and with mixed-type columns the comparator is not a
total order.) -/
theorem c9_sort_desc_is_reverse (data : List Obj) (k : String) (f : Obj → ℚ)
    (hf : ∀ o ∈ data, getFieldV o k = .vNum (f o))
    (hdist : data.Pairwise fun a b => f a ≠ f b) :
    multiColumnSort data [⟨k, false⟩] = (multiColumnSort data [⟨k, true⟩]).reverse := by
  have hasc : multiColumnSort data [⟨k, true⟩] =
      jsSort (fun a b => decide (f a ≤ f b)) data := by
    apply jsSort_congr
    intro x hx y hy
    exact c9_le_asc_eval k x y (f x) (f y) (hf x hx) (hf y hy)
  have hdesc : multiColumnSort data [⟨k, false⟩] =
      jsSort (fun a b => decide (f b ≤ f a)) data := by
    apply jsSort_congr
    intro x hx y hy
    exact c9_le_desc_eval k x y (f x) (f y) (hf x hx) (hf y hy)
  rw [hasc, hdesc]
  have htotD : ∀ x y : Obj, (decide (f y ≤ f x) : Bool) = true ∨ (decide (f x ≤ f y) : Bool) = true := by
    intro x y
    rcases le_total (f y) (f x) with h | h
    · exact Or.inl (by simpa using h)
    · exact Or.inr (by simpa using h)
  have htransD : ∀ x y z : Obj, (decide (f y ≤ f x) : Bool) = true →
      (decide (f z ≤ f y) : Bool) = true → (decide (f z ≤ f x) : Bool) = true := by
    intro x y z h1 h2
    have h1q : f y ≤ f x := by simpa using h1
    have h2q : f z ≤ f y := by simpa using h2
    simpa using le_trans h2q h1q
  have hsortD : (jsSort (fun a b => decide (f b ≤ f a)) data).Pairwise
      (fun x y => (decide (f y ≤ f x) : Bool) = true) :=
    jsSort_pairwise (fun x y => htotD x y) (fun x y z => htransD x y z) data
  have hsortA : (jsSort (fun a b => decide (f a ≤ f b)) data).Pairwise
      (fun x y => (decide (f x ≤ f y) : Bool) = true) :=
    jsSort_pairwise (fun x y => (htotD y x)) (fun x y z h1 h2 => by
      have h1q : f x ≤ f y := by simpa using h1
      have h2q : f y ≤ f z := by simpa using h2
      simpa using le_trans h1q h2q) data
  have hrev : ((jsSort (fun a b => decide (f a ≤ f b)) data).reverse).Pairwise
      (fun x y => (decide (f y ≤ f x) : Bool) = true) := by
    rw [List.pairwise_reverse]
    exact hsortA
  have hperm : (jsSort (fun a b => decide (f b ≤ f a)) data).Perm
      ((jsSort (fun a b => decide (f a ≤ f b)) data).reverse) := by
    refine (jsSort_perm _ data).trans ?_
    exact (jsSort_perm (fun a b => decide (f a ≤ f b)) data).symm.trans
      (List.reverse_perm _).symm
  refine eq_of_perm_pairwise _ _ hperm hsortD hrev ?_
  intro a ha b hb hab hba
  have haD : a ∈ data := ((jsSort_perm _ data).mem_iff).mp ha
  have hbD : b ∈ data := ((jsSort_perm _ data).mem_iff).mp hb
  have h1 : f b ≤ f a := by simpa using hab
  have h2 : f a ≤ f b := by simpa using hba
  exact pairwise_key_inj f data hdist a haD b hbD (le_antisymm h2 h1)

/-- C9 witness: the amended statement at three distinct-amount records. -/
theorem c9_sort_desc_is_reverse_witness :
    multiColumnSort [exSortA, exSortB, exSortC] [⟨"amount", false⟩] =
      (multiColumnSort [exSortA, exSortB, exSortC] [⟨"amount", true⟩]).reverse :=
  c9_sort_desc_is_reverse [exSortA, exSortB, exSortC] "amount"
    (fun o => (toNumber (getFieldV o "amount")).getD 0)
    (by decide) (by decide)

/-! ### C5: month-window scoping -/

/-- C5: with a selected month that parses to the window `[ms, me]`, the
month-scoping step includes a bill exactly when its due date or paid date
falls within the window (both ends inclusive, invalid or absent dates never
matching), includes an income or transaction record exactly when its date
string has the selected month as prefix, and always includes all budgets and
categories. -/
theorem c5_month_scoping (ym : String) (ms me : Ymd) (data : List Obj)
    (hw : monthWindow ym = some (ms, me)) :
    filterToCurrentMonth .bills ym data = data.filter (specBillInWindow ms me) ∧
    filterToCurrentMonth .income ym data = data.filter (specDatePrefix ym) ∧
    filterToCurrentMonth .transactions ym data = data.filter (specDatePrefix ym) ∧
    filterToCurrentMonth .budgets ym data = data ∧
    filterToCurrentMonth .categories ym data = data := by
  refine ⟨?_, rfl, rfl, rfl, rfl⟩
  show data.filter _ = data.filter _
  apply List.filter_congr
  intro item _
  rw [hw]
  unfold specBillInWindow
  cases dueDateOf item with
  | none =>
    cases paidDateOf item with
    | none => simp [inWindow]
    | some pd => simp [inWindow]
  | some dd =>
    cases paidDateOf item with
    | none => simp [inWindow]
    | some pd => simp [inWindow]

/-- C5 witness: the scoping characterization applied to the concrete store
for the month 2024-01 (window 2024-01-01 .. 2024-01-31). -/
theorem c5_month_scoping_witness :
    filterToCurrentMonth .bills "2024-01" exStateK.data.bills =
      exStateK.data.bills.filter (specBillInWindow ⟨2024, 1, 1⟩ ⟨2024, 1, 31⟩) ∧
    filterToCurrentMonth .income "2024-01" exStateK.data.income =
      exStateK.data.income.filter (specDatePrefix "2024-01") ∧
    filterToCurrentMonth .budgets "2024-01" exStateK.data.budgets = exStateK.data.budgets :=
  ⟨(c5_month_scoping "2024-01" ⟨2024, 1, 1⟩ ⟨2024, 1, 31⟩ exStateK.data.bills (by decide)).1,
   (c5_month_scoping "2024-01" ⟨2024, 1, 1⟩ ⟨2024, 1, 31⟩ exStateK.data.income (by decide)).2.1,
   (c5_month_scoping "2024-01" ⟨2024, 1, 1⟩ ⟨2024, 1, 31⟩ exStateK.data.budgets (by decide)).2.2.2.1⟩

/-! ### C2: dashboard KPIs -/

theorem foldl_add_if {α : Type} (l : List α) (p : α → Bool) (g : α → ℚ) (init : ℚ) :
    l.foldl (fun s i => if p i then s + g i else s) init
      = init + ((l.filter p).map g).sum := by
  induction l generalizing init with
  | nil => simp
  | cons a t ih =>
    by_cases h : p a
    · simp only [List.foldl_cons, h, ite_true, List.filter_cons, List.map_cons, List.sum_cons]
      rw [ih]
      ring
    · simp only [List.foldl_cons, h, Bool.false_eq_true, ite_false, List.filter_cons]
      rw [ih]

theorem foldl_add_map {α : Type} (l : List α) (g : α → ℚ) (init : ℚ) :
    l.foldl (fun s i => s + g i) init = init + (l.map g).sum := by
  induction l generalizing init with
  | nil => simp
  | cons a t ih =>
    simp only [List.foldl_cons, List.map_cons, List.sum_cons]
    rw [ih]
    ring

theorem foldl_income_expense (l : List Obj) (pm : Obj → Bool) (g : Obj → ℚ) (a b : ℚ) :
    (l.foldl
      (fun (p : ℚ × ℚ) t =>
        if pm t then
          if g t ≥ 0 then (p.1 + g t, p.2) else (p.1, p.2 + |g t|)
        else p) (a, b))
    = (a + ((l.filter (fun t => pm t ∧ 0 ≤ g t)).map g).sum,
       b + ((l.filter (fun t => pm t ∧ g t < 0)).map (fun t => |g t|)).sum) := by
  induction l generalizing a b with
  | nil => simp
  | cons x t ih =>
    by_cases hm : pm x
    · by_cases hg : g x ≥ 0
      · have h1 : (decide (pm x = true ∧ 0 ≤ g x)) = true := by simp [hm, hg]
        have h2 : (decide (pm x = true ∧ g x < 0)) = false := by simp [hm, not_lt.mpr hg]
        rw [List.foldl_cons]
        simp only [hm, ite_true, hg]
        rw [ih]
        simp only [List.filter_cons, h1, h2, ite_true, Bool.false_eq_true, ite_false,
          List.map_cons, List.sum_cons]
        rw [add_assoc]
      · have h1 : (decide (pm x = true ∧ 0 ≤ g x)) = false := by simp [hm, hg]
        have h2 : (decide (pm x = true ∧ g x < 0)) = true := by simp [hm, not_le.mp hg]
        rw [List.foldl_cons]
        simp only [hm, ite_true, hg, Bool.false_eq_true, ite_false]
        rw [ih]
        simp only [List.filter_cons, h1, h2, ite_true, Bool.false_eq_true, ite_false,
          List.map_cons, List.sum_cons]
        rw [add_assoc]
    · have h1 : (decide (pm x = true ∧ 0 ≤ g x)) = false := by simp [hm]
      have h2 : (decide (pm x = true ∧ g x < 0)) = false := by simp [hm]
      rw [List.foldl_cons]
      simp only [hm, Bool.false_eq_true, ite_false]
      rw [ih]
      simp only [List.filter_cons, h1, h2, Bool.false_eq_true, ite_false]

theorem sum_filter_nonneg_eq_pos (l : List Obj) (pm : Obj → Bool) (g : Obj → ℚ) :
    ((l.filter (fun t => pm t ∧ 0 ≤ g t)).map g).sum
      = ((l.filter (fun t => pm t ∧ 0 < g t)).map g).sum := by
  induction l with
  | nil => rfl
  | cons x t ih =>
    by_cases hm : pm x
    · by_cases hz : g x = 0
      · have h1 : (decide (pm x = true ∧ 0 ≤ g x)) = true := by simp [hm, le_of_eq hz.symm]
        have h2 : (decide (pm x = true ∧ 0 < g x)) = false := by simp [hm, hz]
        simp only [List.filter_cons, h1, h2, ite_true, Bool.false_eq_true, ite_false,
          List.map_cons, List.sum_cons]
        rw [ih, hz]
        ring
      · by_cases hg : 0 ≤ g x
        · have h1 : (decide (pm x = true ∧ 0 ≤ g x)) = true := by simp [hm, hg]
          have h2 : (decide (pm x = true ∧ 0 < g x)) = true := by
            simp [hm, lt_of_le_of_ne hg (Ne.symm hz)]
          simp only [List.filter_cons, h1, h2, ite_true, List.map_cons, List.sum_cons]
          rw [ih]
        · have h1 : (decide (pm x = true ∧ 0 ≤ g x)) = false := by simp [hm, hg]
          have h2 : (decide (pm x = true ∧ 0 < g x)) = false := by
            rw [decide_eq_false_iff_not]
            rintro ⟨-, hc⟩
            exact hg (le_of_lt hc)
          simp only [List.filter_cons, h1, h2, Bool.false_eq_true, ite_false]
          exact ih
    · have h1 : (decide (pm x = true ∧ 0 ≤ g x)) = false := by simp [hm]
      have h2 : (decide (pm x = true ∧ 0 < g x)) = false := by simp [hm]
      simp only [List.filter_cons, h1, h2, Bool.false_eq_true, ite_false]
      exact ih

/-- C2: the KPI computation matches the spec formulas — `totalIncome` is the
month-scoped income sum plus the month-scoped positive transaction sum,
`totalExpenses` the sum of absolute month-scoped negative transaction
amounts, `netAmount` their difference, `budgetUtilizationPercent` the
rounded mean utilization (0 with no budgets) — with non-numeric and missing
amounts coerced to 0 (a total function: it never raises); and when no income
or transaction record's date lies in the month, income, expenses and net are
all 0. -/
theorem c2_kpis (st : AppState) :
    (updateDashboardKPIs st).totalIncome = specTotalIncome st ∧
    (updateDashboardKPIs st).totalExpenses = specTotalExpenses st ∧
    (updateDashboardKPIs st).netAmount =
      (updateDashboardKPIs st).totalIncome - (updateDashboardKPIs st).totalExpenses ∧
    (updateDashboardKPIs st).budgetUtilization = specBudgetUtilization st ∧
    ((∀ i ∈ st.data.income, inMonthV st.currentMonth (getFieldV i "date") = false) →
      (∀ t ∈ st.data.transactions, inMonthV st.currentMonth (getFieldV t "date") = false) →
      (updateDashboardKPIs st).totalIncome = 0 ∧
      (updateDashboardKPIs st).totalExpenses = 0 ∧
      (updateDashboardKPIs st).netAmount = 0) := by
  have hti : (updateDashboardKPIs st).totalIncome = specTotalIncome st := by
    show (st.data.transactions.foldl _
        (st.data.income.foldl _ 0, 0)).1 = _
    rw [foldl_income_expense st.data.transactions
      (fun t => inMonthV st.currentMonth (getFieldV t "date"))
      (fun t => coerce0 (getFieldV t "amount")) _ 0]
    rw [foldl_add_if st.data.income
      (fun i => inMonthV st.currentMonth (getFieldV i "date"))
      (fun i => coerce0 (getFieldV i "amount")) 0]
    rw [sum_filter_nonneg_eq_pos st.data.transactions
      (fun t => inMonthV st.currentMonth (getFieldV t "date"))
      (fun t => coerce0 (getFieldV t "amount"))]
    unfold specTotalIncome
    simp only [zero_add]
  have hte : (updateDashboardKPIs st).totalExpenses = specTotalExpenses st := by
    show (st.data.transactions.foldl _
        (st.data.income.foldl _ 0, 0)).2 = _
    rw [foldl_income_expense st.data.transactions
      (fun t => inMonthV st.currentMonth (getFieldV t "date"))
      (fun t => coerce0 (getFieldV t "amount")) _ 0]
    unfold specTotalExpenses
    simp only [zero_add]
  refine ⟨hti, hte, rfl, ?_, ?_⟩
  · show (if st.data.budgets.length ≠ 0 then _ else _) = _
    unfold specBudgetUtilization
    by_cases hb : st.data.budgets = []
    · simp [hb]
    · have hlen : st.data.budgets.length ≠ 0 := by
        simpa using hb
      simp only [hlen, ne_eq, not_false_iff, ite_true, hb, ite_false]
      rw [foldl_add_map st.data.budgets (fun b => coerce0 (getFieldV b "utilization")) 0]
      rw [zero_add]
  · intro hinc htx
    have hfi : st.data.income.filter
        (fun i => inMonthV st.currentMonth (getFieldV i "date")) = [] := by
      rw [List.filter_eq_nil_iff]
      intro a ha
      simp [hinc a ha]
    have hft : ∀ q : Obj → Prop, [inst : DecidablePred q] →
        st.data.transactions.filter
          (fun t => inMonthV st.currentMonth (getFieldV t "date") ∧ q t) = [] := by
      intro q inst
      rw [List.filter_eq_nil_iff]
      intro a ha
      simp [htx a ha]
    refine ⟨?_, ?_, ?_⟩
    · rw [hti]
      unfold specTotalIncome
      rw [hfi, hft (fun t => 0 < coerce0 (getFieldV t "amount"))]
      simp
    · rw [hte]
      unfold specTotalExpenses
      rw [hft (fun t => coerce0 (getFieldV t "amount") < 0)]
      simp
    · show (updateDashboardKPIs st).totalIncome - (updateDashboardKPIs st).totalExpenses = 0
      rw [hti, hte]
      unfold specTotalIncome specTotalExpenses
      rw [hfi, hft (fun t => 0 < coerce0 (getFieldV t "amount")),
        hft (fun t => coerce0 (getFieldV t "amount") < 0)]
      simp

/-- C2 witness: the KPI characterization at a concrete store whose records
all lie outside the selected month 2031-05, so income, expenses and net are
zero there. -/
theorem c2_kpis_witness :
    (updateDashboardKPIs exStateEmptyMonth).totalIncome = specTotalIncome exStateEmptyMonth ∧
    (updateDashboardKPIs exStateEmptyMonth).budgetUtilization =
      specBudgetUtilization exStateEmptyMonth ∧
    (updateDashboardKPIs exStateEmptyMonth).totalIncome = 0 ∧
    (updateDashboardKPIs exStateEmptyMonth).totalExpenses = 0 ∧
    (updateDashboardKPIs exStateEmptyMonth).netAmount = 0 :=
  ⟨(c2_kpis exStateEmptyMonth).1,
   (c2_kpis exStateEmptyMonth).2.2.2.1,
   ((c2_kpis exStateEmptyMonth).2.2.2.2 (by decide) (by decide)).1,
   ((c2_kpis exStateEmptyMonth).2.2.2.2 (by decide) (by decide)).2.1,
   ((c2_kpis exStateEmptyMonth).2.2.2.2 (by decide) (by decide)).2.2⟩

/-! ### C7: marking a bill paid -/

/-- C7 counterexample: for a bill whose amount due is `-50`, the transaction
`markBillPaid` creates carries amount `-50` (the code takes
`-Math.abs(...)`), not the claim's "negation of the amount due", which would
be `50`. -/
theorem c7_negative_amount_due :
    getFieldV ((markBillPaid "1" "2024-01-15" 99 false exState7).data.transactions.getD 0 [])
      "amount" = .vNum (-50) ∧
    Value.vNum (-((toNumber (getFieldV exBillCredit "Amount_Due")).getD 0)) ≠
      .vNum (-50) := by
  refine ⟨by decide, by decide⟩

/-- C7 amended: when the bill is found and the selected month parses,
marking it paid (with the recurring-placeholder dialog declined) sets that
bill's `Status` to `"Paid"` and its `Paid_Date` to the given day (touching
no other bill field and no other bill), and appends one new transaction
whose amount is the *negated absolute value* of the bill's coerced amount
due, whose category is `"Bills"`, whose date is the start of the selected
month, and whose status is `"Paid"`. -/
theorem c7_mark_bill_paid (st : AppState) (id todayIso : String) (nowMs : ℕ)
    (b : Obj) (ms : Ymd)
    (hfind : st.data.bills.find? (billIdOrIdMatches id) = some b)
    (hms : parseISODate (st.currentMonth ++ "-01") = some ms) :
    (markBillPaid id todayIso nowMs false st).data.transactions.length =
      st.data.transactions.length + 1 ∧
    (markBillPaid id todayIso nowMs false st).data.transactions.take
      st.data.transactions.length = st.data.transactions ∧
    (getFieldV ((markBillPaid id todayIso nowMs false st).data.transactions.getD
        st.data.transactions.length []) "amount" =
      .vNum (-|(toNumber (jsNN (getFieldV b "Amount_Due")
        (jsNN (getFieldV b "amount") (.vNum 0)))).getD 0|)) ∧
    (getFieldV ((markBillPaid id todayIso nowMs false st).data.transactions.getD
        st.data.transactions.length []) "category" = .vStr "Bills") ∧
    (getFieldV ((markBillPaid id todayIso nowMs false st).data.transactions.getD
        st.data.transactions.length []) "date" = .vStr (isoDateString ms)) ∧
    (getFieldV ((markBillPaid id todayIso nowMs false st).data.transactions.getD
        st.data.transactions.length []) "status" = .vStr "Paid") ∧
    (∀ j, j ≠ st.data.bills.findIdx (billIdOrIdMatches id) →
      (markBillPaid id todayIso nowMs false st).data.bills.getD j [] =
        st.data.bills.getD j []) ∧
    (∀ j k, ¬(k = "Status" ∨ k = "Paid_Date") →
      List.lookup k ((markBillPaid id todayIso nowMs false st).data.bills.getD j []) =
        List.lookup k (st.data.bills.getD j [])) ∧
    (∀ j, j = st.data.bills.findIdx (billIdOrIdMatches id) → j < st.data.bills.length →
      List.lookup "Status" ((markBillPaid id todayIso nowMs false st).data.bills.getD j []) =
        some (.vStr "Paid") ∧
      List.lookup "Paid_Date" ((markBillPaid id todayIso nowMs false st).data.bills.getD j []) =
        some (.vStr todayIso)) := by
  have htx : (markBillPaid id todayIso nowMs false st).data.transactions =
      st.data.transactions ++
        [txObj nowMs (.vStr (isoDateString ms))
          (jsOr (getFieldV b "Bill_Name") (getFieldV b "name"))
          (-|(toNumber (jsNN (getFieldV b "Amount_Due")
            (jsNN (getFieldV b "amount") (.vNum 0)))).getD 0|) "Paid"] := by
    unfold markBillPaid
    rw [hfind]
    simp [hms]
  have hbills : (markBillPaid id todayIso nowMs false st).data.bills =
      updateFirst (billIdOrIdMatches id)
        (fun x => setValue (setValue x "Status" (.vStr "Paid")) "Paid_Date" (.vStr todayIso))
        st.data.bills := by
    unfold markBillPaid
    rw [hfind]
  have hgetTx : (markBillPaid id todayIso nowMs false st).data.transactions.getD
      st.data.transactions.length [] =
      txObj nowMs (.vStr (isoDateString ms))
        (jsOr (getFieldV b "Bill_Name") (getFieldV b "name"))
        (-|(toNumber (jsNN (getFieldV b "Amount_Due")
          (jsNN (getFieldV b "amount") (.vNum 0)))).getD 0|) "Paid" := by
    rw [htx]
    unfold List.getD
    rw [List.get?_append_right (le_refl _)]
    simp
  refine ⟨?_, ?_, ?_, ?_, ?_, ?_, ?_, ?_, ?_⟩
  · rw [htx]
    simp
  · rw [htx]
    simp
  · rw [hgetTx]
    simp [txObj, getFieldV, List.lookup]
  · rw [hgetTx]
    simp [txObj, getFieldV, List.lookup]
  · rw [hgetTx]
    simp [txObj, getFieldV, List.lookup]
  · rw [hgetTx]
    simp [txObj, getFieldV, List.lookup]
  · intro j hj
    rw [hbills]
    unfold List.getD
    rw [updateFirst_getq]
    simp [hj]
  · intro j k hk
    push_neg at hk
    rw [hbills]
    unfold List.getD
    rw [updateFirst_getq]
    by_cases hj : j = st.data.bills.findIdx (billIdOrIdMatches id)
    · simp only [hj, ite_true]
      cases hb2 : st.data.bills.get? (st.data.bills.findIdx (billIdOrIdMatches id)) with
      | none => simp
      | some b2 =>
        simp only [Option.map_some', Option.getD_some]
        rw [lookup_setValue_ne _ _ _ _ hk.2, lookup_setValue_ne _ _ _ _ hk.1]
    · simp [hj]
  · intro j hj hlt
    rw [hbills]
    unfold List.getD
    rw [updateFirst_getq]
    simp only [hj, ite_true]
    rw [← hj]
    cases hb2 : st.data.bills.get? j with
    | none =>
      rw [List.get?_eq_none] at hb2
      omega
    | some b2 =>
      simp only [Option.map_some', Option.getD_some]
      constructor
      · rw [lookup_setValue_ne _ _ _ _ (by decide), lookup_setValue_self]
      · rw [lookup_setValue_self]

/-- C7 witness: the claim's example — bill id 1 with amount due 1200 marked
paid on 2024-01-15 in month 2024-01 gets status `"Paid"`, paid date
2024-01-15, and a new transaction with amount `-1200`, category `"Bills"`,
date 2024-01-01. -/
theorem c7_mark_bill_paid_witness :
    (markBillPaid "1" "2024-01-15" 99 false exState7b).data.transactions.length =
      exState7b.data.transactions.length + 1 ∧
    (getFieldV ((markBillPaid "1" "2024-01-15" 99 false exState7b).data.transactions.getD
        exState7b.data.transactions.length []) "amount" =
      .vNum (-|(toNumber (jsNN (getFieldV exBillRent "Amount_Due")
        (jsNN (getFieldV exBillRent "amount") (.vNum 0)))).getD 0|)) ∧
    (getFieldV ((markBillPaid "1" "2024-01-15" 99 false exState7b).data.transactions.getD
        exState7b.data.transactions.length []) "category" = .vStr "Bills") ∧
    (getFieldV ((markBillPaid "1" "2024-01-15" 99 false exState7b).data.transactions.getD
        exState7b.data.transactions.length []) "date" = .vStr (isoDateString ⟨2024, 1, 1⟩)) ∧
    (List.lookup "Status" ((markBillPaid "1" "2024-01-15" 99 false exState7b).data.bills.getD 0 []) =
      some (.vStr "Paid") ∧
     List.lookup "Paid_Date" ((markBillPaid "1" "2024-01-15" 99 false exState7b).data.bills.getD 0 []) =
      some (.vStr "2024-01-15")) :=
  ⟨(c7_mark_bill_paid exState7b "1" "2024-01-15" 99 exBillRent ⟨2024, 1, 1⟩
      (by decide) (by decide)).1,
   (c7_mark_bill_paid exState7b "1" "2024-01-15" 99 exBillRent ⟨2024, 1, 1⟩
      (by decide) (by decide)).2.2.1,
   (c7_mark_bill_paid exState7b "1" "2024-01-15" 99 exBillRent ⟨2024, 1, 1⟩
      (by decide) (by decide)).2.2.2.1,
   (c7_mark_bill_paid exState7b "1" "2024-01-15" 99 exBillRent ⟨2024, 1, 1⟩
      (by decide) (by decide)).2.2.2.2.1,
   (c7_mark_bill_paid exState7b "1" "2024-01-15" 99 exBillRent ⟨2024, 1, 1⟩
      (by decide) (by decide)).2.2.2.2.2.2.2.2 0 (by decide) (by decide)⟩

/-! ### C8: summary statistics -/

/-- C8 counterexample: a record whose amount text is non-numeric gives NaN
totals (`none`), not the claim's "treated as 0" sum (`some 0`): the analytics
for `[{amount: "abc"}]` come out with every amount statistic NaN. -/
theorem c8_nan_propagates :
    renderAnalytics ["amount"] [exBadAmount] =
      some ⟨some ⟨none, none, none, none⟩, 1⟩ ∧
    (none : Option ℚ) ≠ some (specTotal [exBadAmount]) := by
  refine ⟨by decide, fun h => Option.noConfusion h⟩

theorem foldl_nanAdd_all_some (l : List Obj) :
    ∀ q0 : ℚ, (∀ i ∈ l, amountCoerce i ≠ none) →
      l.foldl (fun s i => nanAdd s (amountCoerce i)) (some q0) =
        some (q0 + (l.map (fun i => (amountCoerce i).getD 0)).sum) := by
  induction l with
  | nil =>
    intro q0 _
    simp
  | cons x t ih =>
    intro q0 h
    obtain ⟨qx, hqx⟩ := Option.ne_none_iff_exists'.mp (h x (List.mem_cons_self x t))
    simp only [List.foldl_cons, List.map_cons, List.sum_cons, hqx, Option.getD_some]
    have hstep : nanAdd (some q0) (some qx) = some (q0 + qx) := rfl
    rw [hstep, ih (q0 + qx) (fun i hi => h i (List.mem_cons_of_mem x hi)), add_assoc]

theorem foldl_nanMax_all_some (t : List Obj) :
    ∀ q0 : ℚ, (∀ i ∈ t, amountCoerce i ≠ none) →
      (t.map amountCoerce).foldl nanMax (some q0) =
        some ((t.map (fun i => (amountCoerce i).getD 0)).foldl max q0) := by
  induction t with
  | nil =>
    intro q0 _
    simp
  | cons x t2 ih =>
    intro q0 h
    obtain ⟨qx, hqx⟩ := Option.ne_none_iff_exists'.mp (h x (List.mem_cons_self x t2))
    simp only [List.map_cons, List.foldl_cons, hqx, Option.getD_some]
    have hstep : nanMax (some q0) (some qx) = some (max q0 qx) := rfl
    rw [hstep]
    exact ih (max q0 qx) (fun i hi => h i (List.mem_cons_of_mem x hi))

theorem foldl_nanMin_all_some (t : List Obj) :
    ∀ q0 : ℚ, (∀ i ∈ t, amountCoerce i ≠ none) →
      (t.map amountCoerce).foldl nanMin (some q0) =
        some ((t.map (fun i => (amountCoerce i).getD 0)).foldl min q0) := by
  induction t with
  | nil =>
    intro q0 _
    simp
  | cons x t2 ih =>
    intro q0 h
    obtain ⟨qx, hqx⟩ := Option.ne_none_iff_exists'.mp (h x (List.mem_cons_self x t2))
    simp only [List.map_cons, List.foldl_cons, hqx, Option.getD_some]
    have hstep : nanMin (some q0) (some qx) = some (min q0 qx) := rfl
    rw [hstep]
    exact ih (min q0 qx) (fun i hi => h i (List.mem_cons_of_mem x hi))

/-- C8 amended: for nonempty data on an amount-bearing schema whose amounts
all coerce numerically, the analytics bar shows total = the sum of the
coerced amounts, average = total / count, and max/min over the same coerced
values, and it never raises (it is a total function).  A truthy non-numeric
amount instead propagates NaN through all four statistics (see the
counterexample), and for empty data no statistics are computed at all — the
division by zero is guarded by not computing an average rather than by
yielding 0. -/
theorem c8_analytics_stats (columns : List String) (data : List Obj)
    (hne : data ≠ [])
    (hamt : columns.contains "amount" = true)
    (hnum : ∀ i ∈ data, amountCoerce i ≠ none) :
    renderAnalytics columns data =
      some ⟨some ⟨some (specTotal data),
                  some (specTotal data / (data.length : ℚ)),
                  some (specMaxL (data.map (fun i => (amountCoerce i).getD 0))),
                  some (specMinL (data.map (fun i => (amountCoerce i).getD 0)))⟩,
            data.length⟩ := by
  cases data with
  | nil => exact absurd rfl hne
  | cons x t =>
    obtain ⟨qx, hqx⟩ := Option.ne_none_iff_exists'.mp (hnum x (List.mem_cons_self x t))
    have hT : (x :: t).foldl (fun s i => nanAdd s (amountCoerce i)) (some 0) =
        some (specTotal (x :: t)) := by
      rw [foldl_nanAdd_all_some (x :: t) 0 hnum]
      unfold specTotal
      rw [zero_add]
    have hM : mathMax ((x :: t).map amountCoerce) =
        some (specMaxL ((x :: t).map (fun i => (amountCoerce i).getD 0))) := by
      have hstep : mathMax ((x :: t).map amountCoerce) =
          (t.map amountCoerce).foldl nanMax (amountCoerce x) := rfl
      rw [hstep, hqx,
        foldl_nanMax_all_some t qx (fun i hi => hnum i (List.mem_cons_of_mem x hi))]
      unfold specMaxL
      simp [hqx]
    have hm : mathMin ((x :: t).map amountCoerce) =
        some (specMinL ((x :: t).map (fun i => (amountCoerce i).getD 0))) := by
      have hstep : mathMin ((x :: t).map amountCoerce) =
          (t.map amountCoerce).foldl nanMin (amountCoerce x) := rfl
      rw [hstep, hqx,
        foldl_nanMin_all_some t qx (fun i hi => hnum i (List.mem_cons_of_mem x hi))]
      unfold specMinL
      simp [hqx]
    unfold renderAnalytics
    simp only [List.length_cons, Nat.succ_ne_zero, ne_eq, not_false_iff, ite_true, hamt,
      hT, hM, hm, nanDiv]

/-- C8 witness: the amended statement at the concrete transactions list
(four records, all with numeric amounts). -/
theorem c8_analytics_stats_witness :
    renderAnalytics ["date", "description", "category", "amount", "status"]
        exStateK.data.transactions =
      some ⟨some ⟨some (specTotal exStateK.data.transactions),
                  some (specTotal exStateK.data.transactions /
                    (exStateK.data.transactions.length : ℚ)),
                  some (specMaxL (exStateK.data.transactions.map
                    (fun i => (amountCoerce i).getD 0))),
                  some (specMinL (exStateK.data.transactions.map
                    (fun i => (amountCoerce i).getD 0)))⟩,
            exStateK.data.transactions.length⟩ :=
  c8_analytics_stats ["date", "description", "category", "amount", "status"]
    exStateK.data.transactions (by decide) (by decide) (by decide)

/-! ### C1 groundwork: whitespace, trimming and splitting -/

theorem dropWhile_eq_self_of_head {p : Char → Bool} (l : List Char)
    (h : ∀ c, l.head? = some c → p c = false) : l.dropWhile p = l := by
  cases l with
  | nil => rfl
  | cons a t =>
    rw [List.dropWhile_cons, h a rfl]
    simp

theorem mem_dropWhile_of_not {p : Char → Bool} (c : Char) :
    ∀ (l : List Char), c ∈ l → p c = false → c ∈ l.dropWhile p := by
  intro l
  induction l with
  | nil => intro h _; exact absurd h (by simp)
  | cons a t ih =>
    intro hc hp
    by_cases ha : p a
    · rw [List.dropWhile_cons, if_pos ha]
      rcases List.mem_cons.mp hc with hca | hct
      · subst hca
        exact absurd ha (by simp [hp])
      · exact ih hct hp
    · rw [List.dropWhile_cons, if_neg ha]
      exact hc

theorem head?_memChar {c : Char} : ∀ {l : List Char}, l.head? = some c → c ∈ l := by
  intro l h
  cases l with
  | nil => cases h
  | cons a t =>
    have : a = c := by injection h
    subst this
    exact List.mem_cons_self a t

theorem length_dropWhileChar_le (p : Char → Bool) (l : List Char) :
    (l.dropWhile p).length ≤ l.length :=
  (List.dropWhile_suffix (l := l) p).sublist.length_le

theorem jsTrim_eq_self_of_no_ws (l : List Char)
    (h : ∀ c ∈ l, isJsWs c = false) : jsTrim l = l := by
  unfold jsTrim dropLastWhile
  rw [dropWhile_eq_self_of_head l (fun c hc => h c (head?_memChar hc))]
  rw [dropWhile_eq_self_of_head l.reverse
    (fun c hc => h c (List.mem_reverse.mp (head?_memChar hc)))]
  exact List.reverse_reverse l

theorem jsTrim_ne_nil_of_mem {c : Char} {l : List Char}
    (hc : c ∈ l) (hw : isJsWs c = false) : jsTrim l ≠ [] := by
  unfold jsTrim dropLastWhile
  intro hnil
  have h1 : c ∈ l.dropWhile isJsWs := mem_dropWhile_of_not c l hc hw
  have h2 : c ∈ (l.dropWhile isJsWs).reverse.dropWhile isJsWs :=
    mem_dropWhile_of_not c _ (List.mem_reverse.mpr h1) hw
  rw [List.reverse_eq_nil_iff] at hnil
  rw [hnil] at h2
  cases h2

theorem length_jsTrim_le (l : List Char) : (jsTrim l).length ≤ l.length := by
  unfold jsTrim dropLastWhile
  calc ((l.dropWhile isJsWs).reverse.dropWhile isJsWs).reverse.length
      = ((l.dropWhile isJsWs).reverse.dropWhile isJsWs).length := by
        rw [List.length_reverse]
    _ ≤ (l.dropWhile isJsWs).reverse.length := length_dropWhileChar_le _ _
    _ = (l.dropWhile isJsWs).length := by rw [List.length_reverse]
    _ ≤ l.length := length_dropWhileChar_le _ _

theorem trimmed_head {l : List Char} (h : jsTrim l = l) :
    ∀ c, l.head? = some c → isJsWs c = false := by
  intro c hc
  by_contra hws
  rw [Bool.not_eq_false] at hws
  cases l with
  | nil => cases hc
  | cons a t =>
    have ha : a = c := by injection hc
    subst ha
    have hdw : (a :: t).dropWhile isJsWs = t.dropWhile isJsWs := by
      rw [List.dropWhile_cons, if_pos hws]
    have hlen : (jsTrim (a :: t)).length ≤ t.length := by
      unfold jsTrim dropLastWhile
      rw [hdw]
      calc ((t.dropWhile isJsWs).reverse.dropWhile isJsWs).reverse.length
          = ((t.dropWhile isJsWs).reverse.dropWhile isJsWs).length := by
            rw [List.length_reverse]
        _ ≤ (t.dropWhile isJsWs).reverse.length := length_dropWhileChar_le _ _
        _ = (t.dropWhile isJsWs).length := by rw [List.length_reverse]
        _ ≤ t.length := length_dropWhileChar_le _ _
    rw [h] at hlen
    simp only [List.length_cons] at hlen
    omega

theorem getLast?_mem {c : Char} : ∀ {l : List Char}, l.getLast? = some c → c ∈ l := by
  intro l
  induction l with
  | nil => intro h; cases h
  | cons a t ih =>
    intro h
    cases t with
    | nil =>
      injection h with h2
      subst h2
      exact List.mem_cons_self a []
    | cons b t2 =>
      rw [List.getLast?_cons_cons] at h
      exact List.mem_cons_of_mem a (ih h)

theorem trimmed_last {l : List Char} (h : jsTrim l = l) :
    ∀ c, l.getLast? = some c → isJsWs c = false := by
  intro c hc
  by_contra hws
  rw [Bool.not_eq_false] at hws
  have hlne : l ≠ [] := by
    intro hn
    rw [hn] at hc
    cases hc
  obtain ⟨pre, hpre⟩ := List.dropWhile_suffix (l := l) isJsWs
  by_cases hmnil : l.dropWhile isJsWs = []
  · have hnil : jsTrim l = [] := by
      unfold jsTrim dropLastWhile
      rw [hmnil]
      rfl
    rw [h] at hnil
    exact hlne hnil
  · have hlast : (l.dropWhile isJsWs).getLast? = some c := by
      rw [← hpre, List.getLast?_append_of_ne_nil pre hmnil] at hc
      exact hc
    have hrevhead : (l.dropWhile isJsWs).reverse.head? = some c := by
      rw [List.head?_reverse]
      exact hlast
    have hlen2 : ((l.dropWhile isJsWs).reverse.dropWhile isJsWs).length
        < (l.dropWhile isJsWs).reverse.length := by
      cases hrev : (l.dropWhile isJsWs).reverse with
      | nil =>
        rw [hrev] at hrevhead
        cases hrevhead
      | cons a t =>
        rw [hrev] at hrevhead
        injection hrevhead with he
        subst he
        rw [List.dropWhile_cons, if_pos hws]
        simp only [List.length_cons]
        exact Nat.lt_succ_of_le (length_dropWhileChar_le _ _)
    have hfin : (jsTrim l).length < l.length := by
      unfold jsTrim dropLastWhile
      rw [List.length_reverse]
      calc ((l.dropWhile isJsWs).reverse.dropWhile isJsWs).length
          < (l.dropWhile isJsWs).reverse.length := hlen2
        _ = (l.dropWhile isJsWs).length := List.length_reverse _
        _ ≤ l.length := length_dropWhileChar_le _ _
    rw [h] at hfin
    exact lt_irrefl _ hfin

theorem splitOnChar_ne_nil (sep : Char) : ∀ (l : List Char), splitOnChar sep l ≠ [] := by
  intro l
  induction l with
  | nil => simp [splitOnChar]
  | cons c t ih =>
    by_cases h : c = sep
    · simp [splitOnChar, h]
    · simp only [splitOnChar, h, ite_false]
      cases hs : splitOnChar sep t with
      | nil => simp
      | cons x r => simp

theorem splitOnChar_no_sep (sep : Char) : ∀ (l : List Char),
    (∀ c ∈ l, c ≠ sep) → splitOnChar sep l = [l] := by
  intro l
  induction l with
  | nil => intro _; rfl
  | cons c t ih =>
    intro h
    have hc : c ≠ sep := h c (List.mem_cons_self c t)
    simp only [splitOnChar, hc, ite_false]
    rw [ih (fun x hx => h x (List.mem_cons_of_mem c hx))]

theorem splitOnChar_append_cons (sep : Char) : ∀ (x r : List Char),
    (∀ c ∈ x, c ≠ sep) →
    splitOnChar sep (x ++ sep :: r) = x :: splitOnChar sep r := by
  intro x
  induction x with
  | nil =>
    intro r _
    simp [splitOnChar]
  | cons c t ih =>
    intro r h
    have hc : c ≠ sep := h c (List.mem_cons_self c t)
    simp only [List.cons_append, splitOnChar, hc, ite_false]
    rw [List.append_eq, ih r (fun y hy => h y (List.mem_cons_of_mem c hy))]

theorem splitOnChar_joinSep (sep : Char) : ∀ (ls : List (List Char)), ls ≠ [] →
    (∀ l ∈ ls, ∀ c ∈ l, c ≠ sep) →
    splitOnChar sep (joinSep [sep] ls) = ls := by
  intro ls
  induction ls with
  | nil => intro h; exact absurd rfl h
  | cons x t ih =>
    intro _ h
    cases t with
    | nil =>
      show splitOnChar sep x = [x]
      exact splitOnChar_no_sep sep x (h x (List.mem_cons_self x []))
    | cons y t2 =>
      show splitOnChar sep (x ++ [sep] ++ joinSep [sep] (y :: t2)) = x :: y :: t2
      rw [List.append_assoc, List.singleton_append]
      rw [splitOnChar_append_cons sep x _ (h x (List.mem_cons_self x _))]
      rw [ih (by simp) (fun l hl => h l (List.mem_cons_of_mem x hl))]

theorem dropTrailingCR_id (l : List Char) (h : '\r' ∉ l) : dropTrailingCR l = l := by
  unfold dropTrailingCR
  cases hl : l.getLast? with
  | none => rfl
  | some c =>
    have hc : c ∈ l := getLast?_mem hl
    have : c ≠ '\r' := fun he => h (he ▸ hc)
    simp [this]

theorem stripSeparatorCRs_id : ∀ (ls : List (List Char)),
    (∀ l ∈ ls, '\r' ∉ l) → stripSeparatorCRs ls = ls := by
  intro ls
  induction ls with
  | nil => intro _; rfl
  | cons x t ih =>
    intro h
    cases t with
    | nil => rfl
    | cons y t2 =>
      show dropTrailingCR x :: stripSeparatorCRs (y :: t2) = x :: y :: t2
      rw [dropTrailingCR_id x (h x (List.mem_cons_self x _)),
        ih (fun l hl => h l (List.mem_cons_of_mem x hl))]

theorem splitLines_joinSep (ls : List (List Char)) (hne : ls ≠ [])
    (h : ∀ l ∈ ls, ∀ c ∈ l, c ≠ '\n' ∧ c ≠ '\r') :
    splitLines (joinSep ['\n'] ls) = ls := by
  unfold splitLines
  rw [splitOnChar_joinSep '\n' ls hne (fun l hl c hc => (h l hl c hc).1)]
  exact stripSeparatorCRs_id ls (fun l hl hr => (h l hl '\r' hr).2 rfl)

theorem joinSep_ne_nil (sep : List Char) (x : List Char) (t : List (List Char))
    (hx : x ≠ []) : joinSep sep (x :: t) ≠ [] := by
  cases t with
  | nil => exact hx
  | cons y t2 =>
    show x ++ sep ++ joinSep sep (y :: t2) ≠ []
    simp [hx]

theorem head?_joinSep (sep : List Char) (x : List Char) (t : List (List Char))
    (hx : x ≠ []) : (joinSep sep (x :: t)).head? = x.head? := by
  cases t with
  | nil => rfl
  | cons y t2 =>
    show (x ++ sep ++ joinSep sep (y :: t2)).head? = x.head?
    rw [List.append_assoc]
    cases x with
    | nil => exact absurd rfl hx
    | cons a r => rfl

theorem getLast?_joinSep_lines (sep : List Char) : ∀ (ls : List (List Char)),
    (∀ l ∈ ls, l ≠ []) → ∀ c, (joinSep sep ls).getLast? = some c →
    ∃ l ∈ ls, l.getLast? = some c := by
  intro ls
  induction ls with
  | nil =>
    intro _ c hc
    cases hc
  | cons x t ih =>
    intro hne c hc
    cases t with
    | nil => exact ⟨x, List.mem_cons_self x [], hc⟩
    | cons y t2 =>
      have hrest : joinSep sep (y :: t2) ≠ [] :=
        joinSep_ne_nil sep y t2 (hne y (List.mem_cons_of_mem x (List.mem_cons_self y t2)))
      have hstep : (joinSep sep (x :: y :: t2)).getLast? = (joinSep sep (y :: t2)).getLast? := by
        show (x ++ sep ++ joinSep sep (y :: t2)).getLast? = _
        rw [List.getLast?_append_of_ne_nil _ hrest]
      rw [hstep] at hc
      obtain ⟨l, hl, hlast⟩ := ih (fun l hl => hne l (List.mem_cons_of_mem x hl)) c hc
      exact ⟨l, List.mem_cons_of_mem x hl, hlast⟩

theorem getLast?_joinSep_fields (sep : Char) : ∀ (fs : List (List Char)),
    ∀ c, (joinSep [sep] fs).getLast? = some c →
    c = sep ∨ ∃ f ∈ fs, f.getLast? = some c := by
  intro fs
  induction fs with
  | nil =>
    intro c hc
    cases hc
  | cons x t ih =>
    intro c hc
    cases t with
    | nil => exact Or.inr ⟨x, List.mem_cons_self x [], hc⟩
    | cons y t2 =>
      have hc2 : (x ++ [sep] ++ joinSep [sep] (y :: t2)).getLast? = some c := hc
      by_cases hrest : joinSep [sep] (y :: t2) = []
      · rw [hrest, List.append_nil, List.getLast?_append_of_ne_nil _ (by simp)] at hc2
        injection hc2 with hc3
        exact Or.inl hc3.symm
      · rw [List.getLast?_append_of_ne_nil _ hrest] at hc2
        rcases ih c hc2 with h | ⟨f, hf, hlast⟩
        · exact Or.inl h
        · exact Or.inr ⟨f, List.mem_cons_of_mem x hf, hlast⟩

/-! #### Digit strings and decimal numbers -/

theorem natDigitsAux_eq : ∀ (fuel n : ℕ), n ≤ fuel → natDigitsAux fuel n = Nat.digits 10 n := by
  intro fuel
  induction fuel with
  | zero =>
    intro n h
    have h0 : n = 0 := Nat.le_zero.mp h
    subst h0
    simp [natDigitsAux]
  | succ f ih =>
    intro n h
    by_cases hn : n = 0
    · subst hn; simp [natDigitsAux]
    · simp only [natDigitsAux, if_neg hn]
      rw [Nat.digits_def' (by norm_num : 1 < 10) (Nat.pos_of_ne_zero hn),
        ih (n / 10) (by
          have hlt := Nat.div_lt_self (Nat.pos_of_ne_zero hn) (by norm_num : 1 < 10)
          omega)]

theorem natDigitsLE_eq (n : ℕ) : natDigitsLE n = Nat.digits 10 n :=
  natDigitsAux_eq n n le_rfl

theorem digitVal_digitChar {d : ℕ} (h : d < 10) : digitVal (digitChar d) = d := by
  interval_cases d <;> decide

theorem isDigitCh_digitChar {d : ℕ} (h : d < 10) : isDigitCh (digitChar d) = true := by
  interval_cases d <;> decide

theorem digitsVal_foldl (y : List Char) : ∀ (a : ℕ),
    y.foldl (fun a c => 10 * a + digitVal c) a = a * 10 ^ y.length + digitsVal y := by
  induction y with
  | nil => intro a; simp [digitsVal]
  | cons c t ih =>
    intro a
    simp only [List.foldl_cons, List.length_cons]
    rw [ih (10 * a + digitVal c)]
    have hv : digitsVal (c :: t) = digitVal c * 10 ^ t.length + digitsVal t := by
      simp only [digitsVal, List.foldl_cons]
      rw [ih (10 * 0 + digitVal c)]
      simp only [digitsVal]
      ring
    rw [hv]
    ring

theorem digitsVal_append (x y : List Char) :
    digitsVal (x ++ y) = digitsVal x * 10 ^ y.length + digitsVal y := by
  simp only [digitsVal, List.foldl_append]
  exact digitsVal_foldl y _

theorem digitsVal_replicate_zero : ∀ (j : ℕ), digitsVal (List.replicate j '0') = 0 := by
  intro j
  induction j with
  | zero => rfl
  | succ n ih =>
    simp only [List.replicate_succ, digitsVal, List.foldl_cons]
    have h0 : 10 * 0 + digitVal '0' = 0 := by decide
    rw [h0]
    exact ih

theorem digitsVal_padZeros (l : List Char) (n : ℕ) :
    digitsVal (padZeros l n) = digitsVal l := by
  unfold padZeros
  rw [digitsVal_append, digitsVal_replicate_zero]
  ring

theorem padZeros_length (l : List Char) (n : ℕ) :
    (padZeros l n).length = max n l.length := by
  unfold padZeros
  simp only [List.length_append, List.length_replicate]
  omega

theorem digitsVal_reverse_map : ∀ (ds : List ℕ), (∀ d ∈ ds, d < 10) →
    digitsVal (ds.reverse.map digitChar) = Nat.ofDigits 10 ds := by
  intro ds
  induction ds with
  | nil => intro _; rfl
  | cons d t ih =>
    intro h
    have hd : d < 10 := h d (List.mem_cons_self d t)
    have ht : ∀ x ∈ t, x < 10 := fun x hx => h x (List.mem_cons_of_mem d hx)
    rw [List.reverse_cons, List.map_append, digitsVal_append, ih ht]
    have h1 : digitsVal ([d].map digitChar) = d := by
      simp only [List.map_cons, List.map_nil, digitsVal, List.foldl_cons, List.foldl_nil]
      rw [digitVal_digitChar hd]
      ring
    have hlen : ([d].map digitChar).length = 1 := rfl
    rw [h1, hlen, Nat.ofDigits_cons]
    ring

theorem digitsVal_natChars (m : ℕ) : digitsVal (natChars m) = m := by
  by_cases hm : m = 0
  · subst hm; decide
  · unfold natChars
    rw [if_neg hm, natDigitsLE_eq,
      digitsVal_reverse_map (Nat.digits 10 m)
        (fun d hd => Nat.digits_lt_base (by norm_num) hd)]
    exact Nat.ofDigits_digits 10 m

theorem natChars_ne_nil (m : ℕ) : natChars m ≠ [] := by
  unfold natChars
  by_cases hm : m = 0
  · rw [if_pos hm]; exact List.cons_ne_nil _ _
  · rw [if_neg hm]
    intro h
    have hlen := congrArg List.length h
    simp only [List.length_map, List.length_reverse, List.length_nil] at hlen
    rw [natDigitsLE_eq] at hlen
    exact Nat.digits_ne_nil_iff_ne_zero.mpr hm (List.length_eq_zero.mp hlen)

theorem mem_natChars_digit (m : ℕ) : ∀ c ∈ natChars m, isDigitCh c = true := by
  intro c hc
  unfold natChars at hc
  by_cases hm : m = 0
  · rw [if_pos hm] at hc
    have hc0 : c = '0' := by
      rcases List.mem_singleton.mp hc with h; exact h
    subst hc0; decide
  · rw [if_neg hm] at hc
    rcases List.mem_map.mp hc with ⟨d, hd, hcd⟩
    have hd10 : d < 10 := by
      rw [natDigitsLE_eq] at hd
      exact Nat.digits_lt_base (by norm_num) (List.mem_reverse.mp hd)
    subst hcd
    exact isDigitCh_digitChar hd10

theorem mem_padZeros {c : Char} {l : List Char} {n : ℕ} (h : c ∈ padZeros l n) :
    c = '0' ∨ c ∈ l := by
  unfold padZeros at h
  rcases List.mem_append.mp h with h1 | h2
  · exact Or.inl (List.eq_of_mem_replicate h1)
  · exact Or.inr h2

theorem padZeros_digits (l : List Char) (n : ℕ) (h : ∀ c ∈ l, isDigitCh c = true) :
    ∀ c ∈ padZeros l n, isDigitCh c = true := by
  intro c hc
  rcases mem_padZeros hc with h0 | h1
  · subst h0; decide
  · exact h c h1

theorem digit_not_special {c : Char} (h : isDigitCh c = true) :
    isJsWs c = false ∧ c ≠ ',' ∧ c ≠ '\n' ∧ c ≠ '\r' ∧ c ≠ '-' ∧ c ≠ '+' ∧ c ≠ '.' := by
  unfold isDigitCh at h
  have h2 := of_decide_eq_true h
  obtain ⟨hle, hge⟩ := h2
  refine ⟨?_, ?_, ?_, ?_, ?_, ?_, ?_⟩
  · by_contra hws
    have hws2 : isJsWs c = true := by
      cases hb : isJsWs c
      · exact absurd hb hws
      · rfl
    unfold isJsWs at hws2
    rcases of_decide_eq_true hws2 with h | h | h | h | h | h | h <;>
      subst h <;> revert hle hge <;> decide
  all_goals intro hbad; subst hbad; revert hle hge; decide

theorem takeWhile_all_eq {p : Char → Bool} : ∀ (l : List Char), (∀ c ∈ l, p c = true) →
    l.takeWhile p = l ∧ l.dropWhile p = [] := by
  intro l
  induction l with
  | nil => intro _; exact ⟨rfl, rfl⟩
  | cons a t ih =>
    intro h
    have ha : p a = true := h a (List.mem_cons_self a t)
    have ht := ih (fun c hc => h c (List.mem_cons_of_mem a hc))
    refine ⟨?_, ?_⟩
    · rw [List.takeWhile_cons_of_pos ha, ht.1]
    · rw [List.dropWhile_cons_of_pos ha]
      exact ht.2

theorem takeWhile_append_stop {p : Char → Bool} : ∀ (x : List Char), (∀ c ∈ x, p c = true) →
    ∀ (y : Char) (r : List Char), p y = false →
    (x ++ y :: r).takeWhile p = x ∧ (x ++ y :: r).dropWhile p = y :: r := by
  intro x
  induction x with
  | nil =>
    intro _ y r hy
    have hy2 : ¬ (p y = true) := by simp [hy]
    exact ⟨by simp [List.takeWhile_cons_of_neg hy2],
           by simp [List.dropWhile_cons_of_neg hy2]⟩
  | cons a t ih =>
    intro h y r hy
    have ha : p a = true := h a (List.mem_cons_self a t)
    have ih2 := ih (fun c hc => h c (List.mem_cons_of_mem a hc)) y r hy
    refine ⟨?_, ?_⟩
    · rw [List.cons_append, List.takeWhile_cons_of_pos ha, ih2.1]
    · rw [List.cons_append, List.dropWhile_cons_of_pos ha]
      exact ih2.2

theorem parseUnsigned_digits (cs : List Char) (hne : cs ≠ [])
    (hd : ∀ c ∈ cs, isDigitCh c = true) :
    parseUnsigned cs = some ((digitsVal cs : ℚ)) := by
  have h := takeWhile_all_eq cs hd
  simp only [parseUnsigned]
  rw [h.1, h.2]
  simp [hne]

theorem parseUnsigned_int_frac (I F : List Char) (hIne : I ≠ [])
    (hI : ∀ c ∈ I, isDigitCh c = true) (hF : ∀ c ∈ F, isDigitCh c = true) :
    parseUnsigned (I ++ '.' :: F) =
      some ((digitsVal I : ℚ) + (digitsVal F : ℚ) / 10 ^ F.length) := by
  have hdot : isDigitCh '.' = false := by decide
  have hsplit := takeWhile_append_stop I hI '.' F hdot
  have hFall := takeWhile_all_eq F hF
  simp only [parseUnsigned]
  rw [hsplit.1, hsplit.2]
  simp only [List.head?_cons, List.tail_cons]
  rw [hFall.1, hFall.2]
  simp [hIne]

theorem two_five_decomp : ∀ (d : ℕ), d ≠ 0 → (∃ K, d ∣ 10 ^ K) →
    ∃ a b, d = 2 ^ a * 5 ^ b := by
  intro d
  induction d using Nat.strong_induction_on with
  | _ d ih =>
    intro hd hK
    by_cases h2 : 2 ∣ d
    · obtain ⟨k, hk⟩ := h2
      have hk0 : k ≠ 0 := by rintro rfl; simp at hk; exact hd hk
      have hklt : k < d := by omega
      have hkK : ∃ K, k ∣ 10 ^ K := by
        obtain ⟨K, hKd⟩ := hK
        exact ⟨K, dvd_trans ⟨2, by rw [hk]; ring⟩ hKd⟩
      obtain ⟨a, b, hab⟩ := ih k hklt hk0 hkK
      exact ⟨a + 1, b, by rw [hk, hab]; ring⟩
    · by_cases h5 : 5 ∣ d
      · obtain ⟨k, hk⟩ := h5
        have hk0 : k ≠ 0 := by rintro rfl; simp at hk; exact hd hk
        have hklt : k < d := by omega
        have hkK : ∃ K, k ∣ 10 ^ K := by
          obtain ⟨K, hKd⟩ := hK
          exact ⟨K, dvd_trans ⟨5, by rw [hk]; ring⟩ hKd⟩
        obtain ⟨a, b, hab⟩ := ih k hklt hk0 hkK
        exact ⟨a, b + 1, by rw [hk, hab]; ring⟩
      · have c2 : Nat.Coprime d 2 :=
          ((Nat.Prime.coprime_iff_not_dvd Nat.prime_two).mpr h2).symm
        have c5 : Nat.Coprime d 5 :=
          ((Nat.Prime.coprime_iff_not_dvd (by norm_num)).mpr h5).symm
        have c10 : Nat.Coprime d 10 := by
          have h25 : (10 : ℕ) = 2 * 5 := by norm_num
          rw [h25]
          exact Nat.Coprime.mul_right c2 c5
        obtain ⟨K, hKd⟩ := hK
        have cK : Nat.Coprime d (10 ^ K) := Nat.Coprime.pow_right K c10
        have hd1 : d = 1 := Nat.Coprime.eq_one_of_dvd cK hKd
        exact ⟨0, 0, by rw [hd1]; norm_num⟩

theorem dvd_ten_pow_self (d : ℕ) (hd : d ≠ 0) (hK : ∃ K, d ∣ 10 ^ K) : d ∣ 10 ^ d := by
  obtain ⟨a, b, hab⟩ := two_five_decomp d hd hK
  have h5b : 0 < 5 ^ b := pow_pos (by norm_num) b
  have h2a : 0 < 2 ^ a := pow_pos (by norm_num) a
  have ha : a ≤ d := by
    have h1 : a < 2 ^ a := Nat.lt_two_pow a
    have h2 : 2 ^ a ≤ d := by rw [hab]; nlinarith
    omega
  have hb : b ≤ d := by
    have h1 : b < 5 ^ b := Nat.lt_pow_self (by norm_num) b
    have h2 : 5 ^ b ≤ d := by rw [hab]; nlinarith
    omega
  have hdvd : 2 ^ a * 5 ^ b ∣ 10 ^ d := by
    calc 2 ^ a * 5 ^ b ∣ 2 ^ d * 5 ^ d :=
          mul_dvd_mul (pow_dvd_pow 2 ha) (pow_dvd_pow 5 hb)
      _ = 10 ^ d := by rw [← Nat.mul_pow]
  conv_lhs => rw [hab]
  exact hdvd

theorem findKAux_dvd (d : ℕ) : ∀ (fuel j : ℕ), (∃ i, i < fuel ∧ d ∣ 10 ^ (j + i)) →
    d ∣ 10 ^ findKAux d fuel j := by
  intro fuel
  induction fuel with
  | zero =>
    intro j h
    obtain ⟨i, hi, _⟩ := h
    omega
  | succ f ih =>
    intro j h
    obtain ⟨i, hif, hdvd⟩ := h
    by_cases hj : d ∣ 10 ^ j
    · simp only [findKAux, if_pos hj]
      exact hj
    · simp only [findKAux, if_neg hj]
      apply ih (j + 1)
      have hi0 : i ≠ 0 := by rintro rfl; simp at hdvd; exact hj hdvd
      refine ⟨i - 1, by omega, ?_⟩
      have hji : j + 1 + (i - 1) = j + i := by omega
      rw [hji]
      exact hdvd

theorem findK_dvd (d : ℕ) (hd : d ≠ 0) (hK : ∃ K, d ∣ 10 ^ K) : d ∣ 10 ^ findK d := by
  unfold findK
  apply findKAux_dvd
  refine ⟨d, by omega, ?_⟩
  simpa using dvd_ten_pow_self d hd hK

theorem num_toNat_cast (a : ℚ) (k : ℕ) (ha : 0 ≤ a) (hden : a.den ∣ 10 ^ k) :
    (((a * 10 ^ k).num.toNat : ℕ) : ℚ) = a * 10 ^ k := by
  obtain ⟨c, hc⟩ := hden
  have hdq : (a.den : ℚ) ≠ 0 := by exact_mod_cast a.den_nz
  have hself : a * (a.den : ℚ) = (a.num : ℚ) :=
    (eq_div_iff hdq).mp (Rat.num_div_den a).symm
  have hval : a * 10 ^ k = ((a.num * c : ℤ) : ℚ) := by
    have h1 : ((10 : ℚ)) ^ k = (a.den : ℚ) * (c : ℚ) := by exact_mod_cast hc
    rw [h1]
    push_cast
    calc a * ((a.den : ℚ) * (c : ℚ)) = (a * (a.den : ℚ)) * (c : ℚ) := by ring
      _ = (a.num : ℚ) * (c : ℚ) := by rw [hself]
  have hnn : 0 ≤ a * 10 ^ k := mul_nonneg ha (by positivity)
  have hnum : (a * 10 ^ k).num = a.num * c := by
    rw [hval]
    exact Rat.num_intCast _
  have hznn : 0 ≤ a.num * c := by
    rw [← hnum]
    exact Rat.num_nonneg.mpr hnn
  rw [hnum, hval]
  have htn : ((a.num * c).toNat : ℤ) = a.num * c := Int.toNat_of_nonneg hznn
  exact_mod_cast htn

theorem parse_take_drop (ds : List Char) (k : ℕ)
    (hdig : ∀ c ∈ ds, isDigitCh c = true) (hlen : k < ds.length) :
    parseUnsigned (ds.take (ds.length - k) ++ '.' :: ds.drop (ds.length - k)) =
      some ((digitsVal ds : ℚ) / 10 ^ k) := by
  have hIF : ds.take (ds.length - k) ++ ds.drop (ds.length - k) = ds :=
    List.take_append_drop _ _
  have hIne : ds.take (ds.length - k) ≠ [] := by
    intro h
    have hl := congrArg List.length h
    simp only [List.length_take, List.length_nil] at hl
    omega
  have hIdig : ∀ c ∈ ds.take (ds.length - k), isDigitCh c = true :=
    fun c hc => hdig c (List.take_subset _ _ hc)
  have hFdig : ∀ c ∈ ds.drop (ds.length - k), isDigitCh c = true :=
    fun c hc => hdig c (List.drop_subset _ _ hc)
  rw [parseUnsigned_int_frac _ _ hIne hIdig hFdig]
  have hFlen : (ds.drop (ds.length - k)).length = k := by
    simp only [List.length_drop]
    omega
  have hval : digitsVal ds =
      digitsVal (ds.take (ds.length - k)) * 10 ^ k +
        digitsVal (ds.drop (ds.length - k)) := by
    conv_lhs => rw [← hIF]
    rw [digitsVal_append, hFlen]
  rw [hFlen]
  congr 1
  rw [hval]
  have h10 : ((10 : ℚ)) ^ k ≠ 0 := by positivity
  push_cast
  field_simp

theorem renderPos_eq (a : ℚ) (hk0 : findK a.den ≠ 0) :
    renderPos a =
      (padZeros (natChars ((a * 10 ^ findK a.den).num.toNat)) (findK a.den + 1)).take
          ((padZeros (natChars ((a * 10 ^ findK a.den).num.toNat))
            (findK a.den + 1)).length - findK a.den)
        ++ '.' ::
          (padZeros (natChars ((a * 10 ^ findK a.den).num.toNat)) (findK a.den + 1)).drop
          ((padZeros (natChars ((a * 10 ^ findK a.den).num.toNat))
            (findK a.den + 1)).length - findK a.den) := by
  simp only [renderPos, if_neg hk0]

theorem renderPos_parse (a : ℚ) (ha : 0 ≤ a) (hK : ∃ K, a.den ∣ 10 ^ K) :
    parseUnsigned (renderPos a) = some a := by
  have hd0 : a.den ≠ 0 := a.den_nz
  have hdvd : a.den ∣ 10 ^ findK a.den := findK_dvd a.den hd0 hK
  have hmq : (((a * 10 ^ findK a.den).num.toNat : ℕ) : ℚ) = a * 10 ^ findK a.den :=
    num_toNat_cast a (findK a.den) ha hdvd
  by_cases hk0 : findK a.den = 0
  · have hr : renderPos a = natChars ((a * 10 ^ findK a.den).num.toNat) := by
      simp only [renderPos, if_pos hk0]
    rw [hr, parseUnsigned_digits _ (natChars_ne_nil _) (mem_natChars_digit _)]
    congr 1
    rw [digitsVal_natChars, hmq, hk0]
    norm_num
  · rw [renderPos_eq a hk0]
    rw [parse_take_drop _ (findK a.den)
      (padZeros_digits _ _ (mem_natChars_digit _))
      (by rw [padZeros_length]; omega)]
    congr 1
    rw [digitsVal_padZeros, digitsVal_natChars, hmq,
      mul_div_assoc, div_self (by positivity : ((10 : ℚ)) ^ findK a.den ≠ 0), mul_one]

theorem mem_renderPos (a : ℚ) : ∀ c ∈ renderPos a, isDigitCh c = true ∨ c = '.' := by
  intro c hc
  by_cases hk0 : findK a.den = 0
  · have hr : renderPos a = natChars ((a * 10 ^ findK a.den).num.toNat) := by
      simp only [renderPos, if_pos hk0]
    rw [hr] at hc
    exact Or.inl (mem_natChars_digit _ c hc)
  · rw [renderPos_eq a hk0] at hc
    rcases List.mem_append.mp hc with h1 | h2
    · have hm := List.take_subset _ _ h1
      rcases mem_padZeros hm with h0 | hn
      · subst h0; exact Or.inl (by decide)
      · exact Or.inl (mem_natChars_digit _ c hn)
    · rcases List.mem_cons.mp h2 with h0 | h3
      · exact Or.inr h0
      · have hm := List.drop_subset _ _ h3
        rcases mem_padZeros hm with h0 | hn
        · subst h0; exact Or.inl (by decide)
        · exact Or.inl (mem_natChars_digit _ c hn)

theorem head?_take_append (l : List Char) (j : ℕ) (hj : j ≠ 0) (hl : l ≠ [])
    (x : List Char) : ((l.take j) ++ x).head? = l.head? := by
  cases l with
  | nil => exact absurd rfl hl
  | cons a t =>
    cases j with
    | zero => exact absurd rfl hj
    | succ n => rfl

theorem head_digit_of_all (l : List Char) (hne : l ≠ [])
    (h : ∀ c ∈ l, isDigitCh c = true) :
    ∃ c, l.head? = some c ∧ isDigitCh c = true := by
  cases l with
  | nil => exact absurd rfl hne
  | cons a t => exact ⟨a, rfl, h a (List.mem_cons_self a t)⟩

theorem renderPos_head_digit (a : ℚ) :
    ∃ c, (renderPos a).head? = some c ∧ isDigitCh c = true := by
  by_cases hk0 : findK a.den = 0
  · have hr : renderPos a = natChars ((a * 10 ^ findK a.den).num.toNat) := by
      simp only [renderPos, if_pos hk0]
    rw [hr]
    exact head_digit_of_all _ (natChars_ne_nil _) (mem_natChars_digit _)
  · rw [renderPos_eq a hk0]
    have hlen : findK a.den + 1 ≤
        (padZeros (natChars ((a * 10 ^ findK a.den).num.toNat))
          (findK a.den + 1)).length := by
      rw [padZeros_length]
      omega
    have hne : padZeros (natChars ((a * 10 ^ findK a.den).num.toNat))
        (findK a.den + 1) ≠ [] := by
      intro h
      have hl := congrArg List.length h
      rw [padZeros_length] at hl
      simp only [List.length_nil] at hl
      omega
    rw [head?_take_append _ _ (by omega) hne]
    exact head_digit_of_all _ hne (padZeros_digits _ _ (mem_natChars_digit _))

theorem renderPos_ne_nil (a : ℚ) : renderPos a ≠ [] := by
  by_cases hk0 : findK a.den = 0
  · have hr : renderPos a = natChars ((a * 10 ^ findK a.den).num.toNat) := by
      simp only [renderPos, if_pos hk0]
    rw [hr]
    exact natChars_ne_nil _
  · rw [renderPos_eq a hk0]
    intro h
    rcases List.append_eq_nil.mp h with ⟨_, h2⟩
    exact List.cons_ne_nil _ _ h2

theorem parseDecimal_renderNum (q : ℚ) (hK : ∃ K, q.den ∣ 10 ^ K) :
    parseDecimal (renderNum q) = some q := by
  by_cases hq : q < 0
  · have hr : renderNum q = '-' :: renderPos (-q) := by
      simp only [renderNum, if_pos hq]
    rw [hr]
    simp only [parseDecimal, List.head?_cons, List.tail_cons]
    rw [if_pos trivial,
      renderPos_parse (-q) (by linarith) (by rw [Rat.neg_den]; exact hK)]
    simp
  · have hr : renderNum q = renderPos q := by
      simp only [renderNum, if_neg hq]
    rw [hr]
    obtain ⟨c, hc, hcd⟩ := renderPos_head_digit q
    have hcm : c ≠ '-' := (digit_not_special hcd).2.2.2.2.1
    have hcp : c ≠ '+' := (digit_not_special hcd).2.2.2.2.2.1
    simp only [parseDecimal, hc]
    rw [if_neg (by simp [hcm]), if_neg (by simp [hcp])]
    exact renderPos_parse q (le_of_not_lt hq) hK

theorem mem_renderNum {q : ℚ} {c : Char} (hc : c ∈ renderNum q) :
    isDigitCh c = true ∨ c = '.' ∨ c = '-' := by
  by_cases hq : q < 0
  · have hr : renderNum q = '-' :: renderPos (-q) := by
      simp only [renderNum, if_pos hq]
    rw [hr] at hc
    rcases List.mem_cons.mp hc with h | h
    · exact Or.inr (Or.inr h)
    · rcases mem_renderPos _ c h with h1 | h1
      · exact Or.inl h1
      · exact Or.inr (Or.inl h1)
  · have hr : renderNum q = renderPos q := by
      simp only [renderNum, if_neg hq]
    rw [hr] at hc
    rcases mem_renderPos _ c hc with h1 | h1
    · exact Or.inl h1
    · exact Or.inr (Or.inl h1)

theorem renderNum_no_ws {q : ℚ} : ∀ c ∈ renderNum q, isJsWs c = false := by
  intro c hc
  rcases mem_renderNum hc with h | h | h
  · exact (digit_not_special h).1
  · subst h; decide
  · subst h; decide

theorem renderNum_ne_nil (q : ℚ) : renderNum q ≠ [] := by
  by_cases hq : q < 0
  · have hr : renderNum q = '-' :: renderPos (-q) := by
      simp only [renderNum, if_pos hq]
    rw [hr]
    exact List.cons_ne_nil _ _
  · have hr : renderNum q = renderPos q := by
      simp only [renderNum, if_neg hq]
    rw [hr]
    exact renderPos_ne_nil q

theorem jsNumberOfString_render (q : ℚ) (hK : ∃ K, q.den ∣ 10 ^ K) :
    jsNumberOfString ⟨renderNum q⟩ = some q := by
  simp only [jsNumberOfString]
  rw [jsTrim_eq_self_of_no_ws _ renderNum_no_ws, if_neg (renderNum_ne_nil q)]
  exact parseDecimal_renderNum q hK

theorem renderNum_goodField (q : ℚ) : goodField (renderNum q) := by
  constructor
  · intro c hc hbad
    have hm := mem_renderNum hc
    rcases hbad with rfl | rfl | rfl <;>
      rcases hm with h | h | h <;> revert h <;> decide
  · exact jsTrim_eq_self_of_no_ws _ renderNum_no_ws

theorem parseUnsigned_den {cs : List Char} {q : ℚ} (h : parseUnsigned cs = some q) :
    ∃ K, q.den ∣ 10 ^ K := by
  simp only [parseUnsigned] at h
  split_ifs at h with h1 h2 h3 h4
  · injection h with h5
    refine ⟨0, ?_⟩
    rw [← h5]
    simp [Rat.den_natCast]
  · injection h with h5
    refine ⟨((cs.dropWhile isDigitCh).tail.takeWhile isDigitCh).length, ?_⟩
    have hq2 : q = Rat.divInt
        ((digitsVal (cs.takeWhile isDigitCh) : ℤ) *
            10 ^ ((cs.dropWhile isDigitCh).tail.takeWhile isDigitCh).length +
          (digitsVal ((cs.dropWhile isDigitCh).tail.takeWhile isDigitCh) : ℤ))
        ((10 : ℤ) ^ ((cs.dropWhile isDigitCh).tail.takeWhile isDigitCh).length) := by
      rw [Rat.divInt_eq_div, ← h5]
      push_cast
      have h10 : ((10 : ℚ)) ^
          ((cs.dropWhile isDigitCh).tail.takeWhile isDigitCh).length ≠ 0 := by
        positivity
      field_simp
    have hd := Rat.den_dvd
      ((digitsVal (cs.takeWhile isDigitCh) : ℤ) *
          10 ^ ((cs.dropWhile isDigitCh).tail.takeWhile isDigitCh).length +
        (digitsVal ((cs.dropWhile isDigitCh).tail.takeWhile isDigitCh) : ℤ))
      ((10 : ℤ) ^ ((cs.dropWhile isDigitCh).tail.takeWhile isDigitCh).length)
    rw [← hq2] at hd
    have hcast : ((10 : ℤ)) ^ ((cs.dropWhile isDigitCh).tail.takeWhile isDigitCh).length =
        (((10 ^ ((cs.dropWhile isDigitCh).tail.takeWhile isDigitCh).length : ℕ)) : ℤ) := by
      push_cast
      ring
    rw [hcast] at hd
    exact Int.natCast_dvd_natCast.mp hd

theorem parseDecimal_den {cs : List Char} {q : ℚ} (h : parseDecimal cs = some q) :
    ∃ K, q.den ∣ 10 ^ K := by
  simp only [parseDecimal] at h
  split_ifs at h with h1 h2
  · rcases Option.map_eq_some'.mp h with ⟨x, hx, hxq⟩
    obtain ⟨K, hK⟩ := parseUnsigned_den hx
    refine ⟨K, ?_⟩
    rw [← hxq, Rat.neg_den]
    exact hK
  · exact parseUnsigned_den h
  · exact parseUnsigned_den h

/-! #### CSV parsing of well-formed text -/

theorem mem_joinSep {c : Char} (sep : List Char) : ∀ (fs : List (List Char)),
    c ∈ joinSep sep fs → c ∈ sep ∨ ∃ f ∈ fs, c ∈ f := by
  intro fs
  induction fs with
  | nil => intro h; cases h
  | cons x t ih =>
    intro h
    cases t with
    | nil => exact Or.inr ⟨x, List.mem_cons_self x [], h⟩
    | cons y t2 =>
      have h2 : c ∈ x ++ sep ++ joinSep sep (y :: t2) := h
      rcases List.mem_append.mp h2 with h3 | h4
      · rcases List.mem_append.mp h3 with h5 | h6
        · exact Or.inr ⟨x, List.mem_cons_self x _, h5⟩
        · exact Or.inl h6
      · rcases ih h4 with h5 | ⟨f, hf, hcf⟩
        · exact Or.inl h5
        · exact Or.inr ⟨f, List.mem_cons_of_mem x hf, hcf⟩

theorem sep_mem_joinSep (sep : Char) (x y : List Char) (t : List (List Char)) :
    sep ∈ joinSep [sep] (x :: y :: t) := by
  show sep ∈ x ++ [sep] ++ joinSep [sep] (y :: t)
  simp

theorem joinSep_comma_nonblank (fs : List (List Char)) (h2 : 2 ≤ fs.length) :
    jsTrim (joinSep [','] fs) ≠ [] := by
  obtain ⟨x, y, t, rfl⟩ : ∃ x y t, fs = x :: y :: t := by
    cases fs with
    | nil => simp at h2
    | cons a t1 =>
      cases t1 with
      | nil => simp at h2
      | cons b t2 => exact ⟨a, b, t2, rfl⟩
  exact jsTrim_ne_nil_of_mem (sep_mem_joinSep ',' x y t) (by decide)

theorem stripBOM_id (l : List Char) (h : l.head? ≠ some '﻿') : stripBOM l = l := by
  unfold stripBOM
  split
  · exact absurd rfl h
  · rfl

theorem parseCSV_eval (header : List (List Char)) (rows : List (List (List Char)))
    (cs : List Char)
    (hT : jsTrim cs = joinSep ['\n'] (joinSep [','] header :: rows.map (joinSep [','])))
    (hhlen : 2 ≤ header.length)
    (hhead : ∀ h ∈ header, goodField h ∧ h ≠ [] ∧ h.head? ≠ some '﻿')
    (hrows : ∀ r ∈ rows, r.length = header.length ∧ ∀ f ∈ r, goodField f) :
    parseCSV ⟨cs⟩ = rows.map (rowRecord header) := by
  have hlineH : jsTrim (joinSep [','] header) ≠ [] := joinSep_comma_nonblank header hhlen
  have hne : (⟨cs⟩ : String) ≠ "" := by
    intro h
    have hd : cs = [] := congrArg String.data h
    rw [hd] at hT
    have hnil : jsTrim ([] : List Char) = [] := rfl
    rw [hnil] at hT
    have hHne : joinSep [','] header ≠ [] := by
      intro hh
      rw [hh] at hlineH
      exact hlineH rfl
    exact joinSep_ne_nil ['\n'] _ _ hHne hT.symm
  have hlinechars : ∀ l ∈ (joinSep [','] header :: rows.map (joinSep [','])),
      ∀ c ∈ l, c ≠ '\n' ∧ c ≠ '\r' := by
    intro l hl c hc
    rcases List.mem_cons.mp hl with rfl | hl2
    · rcases mem_joinSep _ _ hc with hs | ⟨f, hf, hcf⟩
      · have hc2 : c = ',' := by simpa using hs
        subst hc2
        exact ⟨by decide, by decide⟩
      · have hg := (hhead f hf).1.1 c hcf
        exact ⟨fun hx => hg (Or.inr (Or.inl hx)), fun hx => hg (Or.inr (Or.inr hx))⟩
    · rcases List.mem_map.mp hl2 with ⟨r, hr, rfl⟩
      rcases mem_joinSep _ _ hc with hs | ⟨f, hf, hcf⟩
      · have hc2 : c = ',' := by simpa using hs
        subst hc2
        exact ⟨by decide, by decide⟩
      · have hg := ((hrows r hr).2 f hf).1 c hcf
        exact ⟨fun hx => hg (Or.inr (Or.inl hx)), fun hx => hg (Or.inr (Or.inr hx))⟩
  have hfilter : ((joinSep [','] header :: rows.map (joinSep [','])).filter
      (fun l => jsTrim l ≠ [])) = joinSep [','] header :: rows.map (joinSep [',']) := by
    rw [List.filter_eq_self]
    intro l hl
    rcases List.mem_cons.mp hl with rfl | hl2
    · exact decide_eq_true hlineH
    · rcases List.mem_map.mp hl2 with ⟨r, hr, rfl⟩
      have hlen2 : 2 ≤ r.length := by
        rw [(hrows r hr).1]
        exact hhlen
      exact decide_eq_true (joinSep_comma_nonblank r hlen2)
  simp only [parseCSV]
  rw [if_neg hne]
  rw [hT, splitLines_joinSep _ (by simp) hlinechars, hfilter]
  show (rows.map (joinSep [','])).map
      (fun line => rowRecord
        ((splitOnChar ',' (joinSep [','] header)).map (fun h => stripBOM (jsTrim h)))
        (splitOnChar ',' line)) = rows.map (rowRecord header)
  rw [splitOnChar_joinSep ',' header
    (by intro hh; rw [hh] at hhlen; simp at hhlen)
    (fun h hh c hc hceq => (hhead h hh).1.1 c hc (Or.inl hceq))]
  have hmapH : header.map (fun h => stripBOM (jsTrim h)) = header := by
    have hid : ∀ h ∈ header, stripBOM (jsTrim h) = h := by
      intro h hh
      rw [(hhead h hh).1.2]
      exact stripBOM_id h (hhead h hh).2.2
    calc header.map (fun h => stripBOM (jsTrim h)) = header.map id :=
          List.map_congr_left hid
      _ = header := List.map_id header
  rw [hmapH, List.map_map]
  apply List.map_congr_left
  intro r hr
  simp only [Function.comp_apply]
  have hrlen := (hrows r hr).1
  have hrne : r ≠ [] := by
    intro h
    rw [h] at hrlen
    simp at hrlen
    omega
  rw [splitOnChar_joinSep ',' r hrne
    (fun f hf c hc hceq => ((hrows r hr).2 f hf).1 c hc (Or.inl hceq))]

/-! #### Serialized CSV text shape and cell round-trip -/

theorem serialize_shape (hline : List Char) : ∀ (rows : List (List Char)),
    hline ++ '\n' :: (rows.map (fun l => l ++ ['\n'])).flatten =
      joinSep ['\n'] (hline :: rows) ++ ['\n'] := by
  intro rows
  induction rows generalizing hline with
  | nil => simp [joinSep]
  | cons y t ih =>
    show hline ++ '\n' :: ((y ++ ['\n']) ++ (t.map (fun l => l ++ ['\n'])).flatten) =
      (hline ++ ['\n'] ++ joinSep ['\n'] (y :: t)) ++ ['\n']
    have h1 : (y ++ ['\n']) ++ (t.map (fun l => l ++ ['\n'])).flatten =
        joinSep ['\n'] (y :: t) ++ ['\n'] := by
      rw [List.append_assoc, List.singleton_append]
      exact ih y
    rw [h1]
    simp

theorem saveBillsToCSV_data (bills : List Obj) :
    (saveBillsToCSV bills).data =
      joinSep ['\n'] (joinSep [','] (billsSchema.map String.data) ::
        bills.map (fun b => joinSep [','] (billRowFields b))) ++ ['\n'] := by
  have h := serialize_shape (joinSep [','] (billsSchema.map String.data))
    (bills.map (fun b => joinSep [','] (billRowFields b)))
  rw [List.map_map] at h
  exact h

theorem jsTrim_sandwich (x : List Char) (hne : x ≠ [])
    (hhead : ∀ c, x.head? = some c → isJsWs c = false)
    (hlast : ∀ c, x.getLast? = some c → isJsWs c = false) :
    jsTrim (x ++ ['\n']) = x := by
  unfold jsTrim dropLastWhile
  have hh : ∀ c, (x ++ ['\n']).head? = some c → isJsWs c = false := by
    intro c hc
    cases x with
    | nil => exact absurd rfl hne
    | cons a t =>
      injection hc with hc2
      subst hc2
      exact hhead _ rfl
  rw [dropWhile_eq_self_of_head (x ++ ['\n']) hh, List.reverse_append]
  show (((['\n'] : List Char) ++ x.reverse).dropWhile isJsWs).reverse = x
  rw [List.singleton_append, List.dropWhile_cons_of_pos (by decide)]
  rw [dropWhile_eq_self_of_head x.reverse
    (fun c hc => hlast c (by rwa [List.head?_reverse] at hc))]
  exact List.reverse_reverse x

theorem flattenNewlines_id (s : String) (h : ∀ c ∈ s.data, c ≠ '\n') :
    flattenNewlines s = s := by
  show (⟨s.data.map (fun c => if c = '\n' then ' ' else c)⟩ : String) = ⟨s.data⟩
  congr 1
  calc s.data.map (fun c => if c = '\n' then ' ' else c) = s.data.map id :=
        List.map_congr_left (fun c hc => by simp [h c hc])
    _ = s.data := List.map_id _

theorem jsNN_vStr (s : String) (b : Value) : jsNN (.vStr s) b = .vStr s := rfl

theorem jsNN_vNum (q : ℚ) (b : Value) : jsNN (.vNum q) b = .vNum q := rfl

theorem cellValue_shape (k raw : List Char) :
    cellValue k raw = .vStr ⟨raw⟩ ∨
      ∃ q, cellValue k raw = .vNum q ∧ jsNumberOfString ⟨raw⟩ = some q ∧
        ((isAmountHeader k : Prop) ∧ raw ≠ []) := by
  unfold cellValue
  split_ifs with h
  · cases hj : jsNumberOfString ⟨raw⟩ with
    | none => exact Or.inl rfl
    | some q => exact Or.inr ⟨q, rfl, rfl, h⟩
  · exact Or.inl rfl

theorem cell_roundtrip (k raw : List Char) (htrim : jsTrim raw = raw) :
    cellValue k (jsTrim (valueToString (jsNN (cellValue k raw) (.vStr ""))).data) =
      cellValue k raw := by
  rcases cellValue_shape k raw with hstr | ⟨q, hnum, hjq, hcond⟩
  · rw [hstr, jsNN_vStr]
    have hv : (valueToString (Value.vStr ⟨raw⟩)).data = raw := rfl
    rw [hv, htrim]
    exact hstr
  · rw [hnum, jsNN_vNum]
    have hv : (valueToString (Value.vNum q)).data = renderNum q := rfl
    rw [hv, jsTrim_eq_self_of_no_ws _ renderNum_no_ws]
    have hK : ∃ K, q.den ∣ 10 ^ K := by
      simp only [jsNumberOfString] at hjq
      rw [htrim] at hjq
      rcases hcond with ⟨_, hr0⟩
      rw [if_neg hr0] at hjq
      exact parseDecimal_den hjq
    unfold cellValue
    rw [if_pos (And.intro hcond.1 (renderNum_ne_nil q)),
      jsNumberOfString_render q hK]

theorem serField_eval (b : Obj) (k : String)
    (hnl : ∀ c ∈ (billField b k).data, c ≠ '\n') :
    serField b k = (billField b k).data := by
  unfold serField
  split_ifs with h
  · rw [flattenNewlines_id _ hnl]
  · rfl

theorem billRowFields_eq (b : Obj) : billRowFields b = billsSchema.map (serField b) := by
  rfl

theorem getD_lt {α : Type} (l : List α) (i : ℕ) (d : α) (h : i < l.length) :
    l.getD i d = l.get ⟨i, h⟩ := by
  rw [List.getD_eq_get?, List.get?_eq_get h]
  rfl

theorem lookup_rowRecordAux_skip (values : List (List Char)) :
    ∀ (hs : List (List Char)) (idx : ℕ) (r : Obj) (k : String),
    (∀ h ∈ hs, (⟨h⟩ : String) ≠ k) →
    List.lookup k (rowRecordAux values idx hs r) = List.lookup k r := by
  intro hs
  induction hs with
  | nil => intro idx r k _; rfl
  | cons h t ih =>
    intro idx r k hk
    show List.lookup k (rowRecordAux values (idx + 1) t
      (setValue r ⟨h⟩ (cellValue h (jsTrim (values.getD idx []))))) = List.lookup k r
    rw [ih (idx + 1) _ k (fun x hx => hk x (List.mem_cons_of_mem h hx))]
    exact lookup_setValue_ne _ _ _ _ (hk h (List.mem_cons_self h t)).symm

theorem lookup_rowRecordAux_hit (values : List (List Char)) :
    ∀ (hs : List (List Char)) (idx : ℕ) (r : Obj) (i : ℕ) (hi : i < hs.length),
    (hs.map (fun h => (⟨h⟩ : String))).Nodup →
    List.lookup ⟨hs.get ⟨i, hi⟩⟩ (rowRecordAux values idx hs r) =
      some (cellValue (hs.get ⟨i, hi⟩) (jsTrim (values.getD (idx + i) []))) := by
  intro hs
  induction hs with
  | nil =>
    intro idx r i hi
    exact absurd hi (by simp)
  | cons h t ih =>
    intro idx r i hi hnd
    simp only [List.map_cons, List.nodup_cons] at hnd
    obtain ⟨hnotin, hndt⟩ := hnd
    cases i with
    | zero =>
      show List.lookup ⟨h⟩ (rowRecordAux values (idx + 1) t
        (setValue r ⟨h⟩ (cellValue h (jsTrim (values.getD idx []))))) = _
      rw [lookup_rowRecordAux_skip values t (idx + 1) _ ⟨h⟩
        (fun x hx he => hnotin (he ▸ List.mem_map_of_mem _ hx))]
      rw [lookup_setValue_self]
      simp
    | succ i2 =>
      show List.lookup ⟨(h :: t).get ⟨i2 + 1, hi⟩⟩ (rowRecordAux values (idx + 1) t
        (setValue r ⟨h⟩ (cellValue h (jsTrim (values.getD idx []))))) = _
      have hi2 : i2 < t.length := by
        have := hi
        simp only [List.length_cons] at this
        omega
      have hget : (h :: t).get ⟨i2 + 1, hi⟩ = t.get ⟨i2, hi2⟩ := rfl
      rw [hget, ih (idx + 1) _ i2 hi2 hndt]
      have hidx : idx + 1 + i2 = idx + (i2 + 1) := by omega
      rw [hidx]

theorem lookup_rowRecord_none (headers values : List (List Char)) (k : String)
    (hk : ∀ h ∈ headers, (⟨h⟩ : String) ≠ k) :
    List.lookup k (rowRecord headers values) = none := by
  unfold rowRecord
  rw [lookup_rowRecordAux_skip values headers 0 [] k hk]
  rfl

theorem lookup_rowRecord_hit (headers values : List (List Char)) (i : ℕ)
    (hi : i < headers.length)
    (hnd : (headers.map (fun h => (⟨h⟩ : String))).Nodup) :
    List.lookup ⟨headers.get ⟨i, hi⟩⟩ (rowRecord headers values) =
      some (cellValue (headers.get ⟨i, hi⟩) (jsTrim (values.getD i []))) := by
  unfold rowRecord
  have h := lookup_rowRecordAux_hit values headers 0 [] i hi hnd
  simpa using h

theorem billsSchema_nodup : billsSchema.Nodup := by decide

theorem schemaFields_nodup :
    ((billsSchema.map String.data).map (fun h => (⟨h⟩ : String))).Nodup := by
  rw [List.map_map]
  have hid : billsSchema.map ((fun h => (⟨h⟩ : String)) ∘ String.data) = billsSchema := by
    calc billsSchema.map ((fun h => (⟨h⟩ : String)) ∘ String.data)
        = billsSchema.map id := List.map_congr_left (fun s _ => rfl)
      _ = billsSchema := List.map_id _
  rw [hid]
  exact billsSchema_nodup

theorem getFieldV_schema (header : List (List Char)) (r : List (List Char))
    (hperm : (header.map (fun h => (⟨h⟩ : String))).Perm billsSchema)
    (hlen : r.length = header.length)
    (hr : ∀ f ∈ r, goodField f) (k : String) (hk : k ∈ billsSchema) :
    ∃ raw, jsTrim raw = raw ∧ goodField raw ∧
      List.lookup k (rowRecord header r) = some (cellValue k.data raw) := by
  have hkh : k ∈ header.map (fun h => (⟨h⟩ : String)) := hperm.mem_iff.mpr hk
  rcases List.mem_map.mp hkh with ⟨h0, hh0, hkeq⟩
  rcases List.mem_iff_get.mp hh0 with ⟨⟨i, hi⟩, hget⟩
  have hnd : (header.map (fun h => (⟨h⟩ : String))).Nodup :=
    hperm.nodup_iff.mpr billsSchema_nodup
  have hilen : i < r.length := by rw [hlen]; exact hi
  have hgd : r.getD i [] = r.get ⟨i, hilen⟩ := getD_lt r i [] hilen
  have hgood : goodField (r.get ⟨i, hilen⟩) := hr _ (List.get_mem r i hilen)
  refine ⟨r.get ⟨i, hilen⟩, hgood.2, hgood, ?_⟩
  have hhit := lookup_rowRecord_hit header r i hi hnd
  rw [hgd, hgood.2, hget] at hhit
  have hdat : h0 = k.data := by rw [← hkeq]
  rw [hdat] at hhit
  rw [show (⟨k.data⟩ : String) = k from rfl] at hhit
  exact hhit

theorem serField_formula (b : Obj) (k : String) (raw : List Char)
    (hgood : goodField raw)
    (hlk : List.lookup k b = some (cellValue k.data raw)) :
    serField b k = (valueToString (jsNN (cellValue k.data raw) (.vStr ""))).data ∧
      goodField (serField b k) := by
  have hgf : getFieldV b k = cellValue k.data raw := by
    unfold getFieldV
    rw [hlk]
    rfl
  have hbf : billField b k = valueToString (jsNN (cellValue k.data raw) (.vStr "")) := by
    unfold billField
    rw [hgf]
  rcases cellValue_shape k.data raw with hstr | ⟨q, hnum, hjq, hcond⟩
  · have hdata : (billField b k).data = raw := by
      rw [hbf, hstr, jsNN_vStr]
      rfl
    have hnl : ∀ c ∈ (billField b k).data, c ≠ '\n' := by
      rw [hdata]
      intro c hc he
      exact hgood.1 c hc (Or.inr (Or.inl he))
    constructor
    · rw [serField_eval _ _ hnl, hbf]
    · rw [serField_eval _ _ hnl, hdata]
      exact hgood
  · have hdata : (billField b k).data = renderNum q := by
      rw [hbf, hnum, jsNN_vNum]
      rfl
    have hnl : ∀ c ∈ (billField b k).data, c ≠ '\n' := by
      rw [hdata]
      intro c hc he
      exact (renderNum_goodField q).1 c hc (Or.inr (Or.inl he))
    constructor
    · rw [serField_eval _ _ hnl, hbf]
    · rw [serField_eval _ _ hnl, hdata]
      exact renderNum_goodField q

theorem billRowFields_good (header r : List (List Char))
    (hperm : (header.map (fun h => (⟨h⟩ : String))).Perm billsSchema)
    (hlen : r.length = header.length)
    (hr : ∀ f ∈ r, goodField f) :
    ∀ f ∈ billRowFields (rowRecord header r), goodField f := by
  intro f hf
  rw [billRowFields_eq] at hf
  rcases List.mem_map.mp hf with ⟨k, hk, rfl⟩
  obtain ⟨raw, htrim, hgood, hlk⟩ := getFieldV_schema header r hperm hlen hr k hk
  exact (serField_formula _ k raw hgood hlk).2

theorem record_roundtrip (header r : List (List Char))
    (hperm : (header.map (fun h => (⟨h⟩ : String))).Perm billsSchema)
    (hlen : r.length = header.length)
    (hr : ∀ f ∈ r, goodField f) :
    recEquiv (rowRecord (billsSchema.map String.data)
        (billRowFields (rowRecord header r)))
      (rowRecord header r) := by
  intro k
  by_cases hk : k ∈ billsSchema
  · rcases List.mem_iff_get.mp hk with ⟨⟨j, hj⟩, hgetj⟩
    obtain ⟨raw, htrim, hgood, hlk⟩ := getFieldV_schema header r hperm hlen hr k hk
    have hsf := serField_formula (rowRecord header r) k raw hgood hlk
    have hj2 : j < (billsSchema.map String.data).length := by
      rw [List.length_map]
      exact hj
    have hhit := lookup_rowRecord_hit (billsSchema.map String.data)
      (billRowFields (rowRecord header r)) j hj2 schemaFields_nodup
    have hkey : (billsSchema.map String.data).get ⟨j, hj2⟩ = k.data := by
      have h1 : (billsSchema.map String.data).get? j =
          some ((billsSchema.map String.data).get ⟨j, hj2⟩) := List.get?_eq_get hj2
      rw [List.get?_map, List.get?_eq_get hj, hgetj] at h1
      injection h1 with h2
      exact h2.symm
    have hval : (billRowFields (rowRecord header r)).getD j [] =
        serField (rowRecord header r) k := by
      rw [billRowFields_eq, List.getD_eq_get?, List.get?_map,
        List.get?_eq_get hj, hgetj]
      rfl
    rw [hkey] at hhit
    rw [show (⟨k.data⟩ : String) = k from rfl] at hhit
    rw [hval] at hhit
    rw [hhit, hsf.1, cell_roundtrip k.data raw htrim, hlk]
  · have h1 : List.lookup k (rowRecord (billsSchema.map String.data)
        (billRowFields (rowRecord header r))) = none := by
      apply lookup_rowRecord_none
      intro h hh he
      apply hk
      rcases List.mem_map.mp hh with ⟨s, hs, rfl⟩
      have he2 : s = k := he
      exact he2 ▸ hs
    have h2 : List.lookup k (rowRecord header r) = none := by
      apply lookup_rowRecord_none
      intro h hh he
      apply hk
      have hm : (⟨h⟩ : String) ∈ header.map (fun h => (⟨h⟩ : String)) :=
        List.mem_map_of_mem _ hh
      rw [he] at hm
      exact hperm.mem_iff.mp hm
    rw [h1, h2]

theorem saveBills_body_last (bills : List Obj)
    (hgf : ∀ b ∈ bills, ∀ f ∈ billRowFields b, goodField f) :
    ∀ c, (joinSep ['\n'] (joinSep [','] (billsSchema.map String.data) ::
        bills.map (fun b => joinSep [','] (billRowFields b)))).getLast? = some c →
      isJsWs c = false := by
  intro c hc
  have hlines : ∀ l ∈ (joinSep [','] (billsSchema.map String.data) ::
      bills.map (fun b => joinSep [','] (billRowFields b))), l ≠ [] := by
    intro l hl
    rcases List.mem_cons.mp hl with rfl | hl2
    · decide
    · rcases List.mem_map.mp hl2 with ⟨b, hb, rfl⟩
      have hcm : ',' ∈ joinSep [','] (billRowFields b) := by
        rw [billRowFields_eq]
        exact sep_mem_joinSep ',' _ _ _
      exact List.ne_nil_of_mem hcm
  obtain ⟨l, hl, hlast⟩ := getLast?_joinSep_lines ['\n'] _ hlines c hc
  rcases List.mem_cons.mp hl with rfl | hl2
  · have hv : (joinSep [','] (billsSchema.map String.data)).getLast? = some 's' := by
      decide
    rw [hv] at hlast
    injection hlast with h2
    subst h2
    decide
  · rcases List.mem_map.mp hl2 with ⟨b, hb, rfl⟩
    rcases getLast?_joinSep_fields ',' (billRowFields b) c hlast with hcm | ⟨f, hf, hfl⟩
    · subst hcm
      decide
    · exact trimmed_last (hgf b hb f hf).2 c hfl

theorem saveBills_trim (bills : List Obj)
    (hgf : ∀ b ∈ bills, ∀ f ∈ billRowFields b, goodField f) :
    jsTrim (saveBillsToCSV bills).data =
      joinSep ['\n'] (joinSep [','] (billsSchema.map String.data) ::
        bills.map (fun b => joinSep [','] (billRowFields b))) := by
  rw [saveBillsToCSV_data]
  apply jsTrim_sandwich
  · apply joinSep_ne_nil
    decide
  · intro c hc
    rw [head?_joinSep _ _ _ (by decide)] at hc
    have hB : (joinSep [','] (billsSchema.map String.data)).head? = some 'B' := by decide
    rw [hB] at hc
    injection hc with hc2
    subst hc2
    decide
  · exact saveBills_body_last bills hgf

/-- C1: for every valid CSV text `T` over the bills schema (any column
order) whose fields embed no commas, newlines or carriage returns and carry
no surrounding whitespace, serializing the records produced by parsing `T`
yields CSV text that parses back to the same records: same record count,
and record-by-record equal field lookups for every column name (column
order ignored). -/
theorem c1_csv_roundtrip (header : List (List Char)) (rows : List (List (List Char)))
    (cs : List Char)
    (hT : jsTrim cs = joinSep ['\n'] (joinSep [','] header :: rows.map (joinSep [','])))
    (hperm : (header.map (fun h => (⟨h⟩ : String))).Perm billsSchema)
    (hrows : ∀ r ∈ rows, r.length = header.length ∧ ∀ f ∈ r, goodField f) :
    (parseCSV (saveBillsToCSV (parseCSV ⟨cs⟩))).length = (parseCSV ⟨cs⟩).length ∧
    ∀ i, recEquiv ((parseCSV (saveBillsToCSV (parseCSV ⟨cs⟩))).getD i [])
      ((parseCSV ⟨cs⟩).getD i []) := by
  have hhlen : 2 ≤ header.length := by
    have h1 := hperm.length_eq
    rw [List.length_map] at h1
    rw [h1]
    decide
  have hheadmem : ∀ h ∈ header, goodField h ∧ h ≠ [] ∧ h.head? ≠ some '﻿' := by
    intro h hh
    have hs : (⟨h⟩ : String) ∈ billsSchema :=
      hperm.mem_iff.mp (List.mem_map_of_mem _ hh)
    have hall : ∀ s ∈ billsSchema, goodField s.data ∧ s.data ≠ [] ∧
        s.data.head? ≠ some '﻿' := by decide
    exact hall ⟨h⟩ hs
  have hp1 : parseCSV ⟨cs⟩ = rows.map (rowRecord header) :=
    parseCSV_eval header rows cs hT hhlen hheadmem hrows
  have hgf : ∀ b ∈ rows.map (rowRecord header), ∀ f ∈ billRowFields b, goodField f := by
    intro b hb
    rcases List.mem_map.mp hb with ⟨r, hr, rfl⟩
    exact billRowFields_good header r hperm (hrows r hr).1 (hrows r hr).2
  have hT2 : jsTrim (saveBillsToCSV (rows.map (rowRecord header))).data =
      joinSep ['\n'] (joinSep [','] (billsSchema.map String.data) ::
        ((rows.map (rowRecord header)).map billRowFields).map (joinSep [','])) := by
    rw [List.map_map]
    exact saveBills_trim _ hgf
  have hp2 : parseCSV ⟨(saveBillsToCSV (rows.map (rowRecord header))).data⟩ =
      ((rows.map (rowRecord header)).map billRowFields).map
        (rowRecord (billsSchema.map String.data)) := by
    apply parseCSV_eval _ _ _ hT2
    · decide
    · decide
    · intro r2 hr2
      rcases List.mem_map.mp hr2 with ⟨b, hb, rfl⟩
      rcases List.mem_map.mp hb with ⟨r, hr, rfl⟩
      constructor
      · rw [billRowFields_eq]
        simp [List.length_map]
      · exact billRowFields_good header r hperm (hrows r hr).1 (hrows r hr).2
  have heta : (⟨(saveBillsToCSV (rows.map (rowRecord header))).data⟩ : String) =
      saveBillsToCSV (rows.map (rowRecord header)) := rfl
  rw [heta] at hp2
  rw [hp1, hp2]
  constructor
  · simp [List.length_map]
  · intro i
    have hout : (((rows.map (rowRecord header)).map billRowFields).map
        (rowRecord (billsSchema.map String.data))).getD i [] =
        ((rows.get? i).map (fun r => rowRecord (billsSchema.map String.data)
          (billRowFields (rowRecord header r)))).getD [] := by
      rw [List.getD_eq_get?, List.get?_map, List.get?_map, List.get?_map,
        Option.map_map, Option.map_map]
      rfl
    have hin : (rows.map (rowRecord header)).getD i [] =
        ((rows.get? i).map (rowRecord header)).getD [] := by
      rw [List.getD_eq_get?, List.get?_map]
    rw [hout, hin]
    cases hr : rows.get? i with
    | none =>
      intro k
      rfl
    | some r =>
      have hrm : r ∈ rows := List.get?_mem hr
      exact record_roundtrip header r hperm (hrows r hrm).1 (hrows r hrm).2

/-- Witness for C1: a concrete one-row bills CSV (amount `12.5`) whose
hypotheses hold by computation, round-tripped through serialize-then-parse. -/
theorem c1_csv_roundtrip_witness :
    (jsTrim exCsvText =
        joinSep ['\n'] (joinSep [','] exCsvHeader :: [exCsvRow].map (joinSep [','])) ∧
      ∀ r ∈ [exCsvRow], r.length = exCsvHeader.length ∧ ∀ f ∈ r, goodField f) ∧
    ((parseCSV (saveBillsToCSV (parseCSV ⟨exCsvText⟩))).length =
        (parseCSV ⟨exCsvText⟩).length ∧
      ∀ i, recEquiv ((parseCSV (saveBillsToCSV (parseCSV ⟨exCsvText⟩))).getD i [])
        ((parseCSV ⟨exCsvText⟩).getD i [])) :=
  ⟨⟨by decide, by decide⟩,
    c1_csv_roundtrip exCsvHeader [exCsvRow] exCsvText (by decide)
      (List.Perm.refl billsSchema) (by decide)⟩

end BudgetApp
